import Mathlib

/-!
Verification of the editable JSON tree engine of `src/main.ts` (an Obsidian
JSON-editor plugin).  The development shallowly embeds the plugin's core:

* the in-memory value model produced by `JSON.parse` (line 120),
* the serializer `JSON.stringify(this.jsonData, null, 2)` (line 207),
* the recursive field builder `createFields` of `displayEditor`
  (lines 135-156), including its `Object.keys(data).sort()` display
  ordering and its `String(value)` leaf rendering,
* the edit commit `data[key] = newValue` of the text field's `onChange`
  handler (lines 149-153), and
* the load handler of `onOpen` (lines 115-127) with its state
  (`this.jsonData`, `this.filePath`) and its notices.

Modelling conventions, stated once:

* JavaScript strings are modelled as Lean `String`s (sequences of Unicode
  scalar values); the UTF-16 code-unit view of JS strings (lone surrogates,
  code-unit-order sorting of astral characters) is not modelled, and no
  claim below depends on it.
* JSON numbers are modelled as integers (`Int`).  The source stores IEEE
  float64 numbers; their decimal printing/parsing round-trip is a property
  of the host's shortest-representation algorithm and is outside a shallow
  embedding.  Every claim below is about structure, ordering and tags, not
  about fractional values, so the integer fragment is faithful for them.
* `JSON.parse`'s re-ordering of integer-like object keys (an ECMAScript
  property-order artefact) is not modelled: objects keep the insertion
  order of the source text, as §3 of the specification states.  Duplicate
  object keys ARE modelled with JavaScript's semantics (last value wins,
  first position kept).
-/

set_option linter.unusedVariables false

/-- The value model: a parsed JSON document, as `JSON.parse` produces it.
Objects are insertion-ordered association lists. -/
inductive JsonValue where
  | null : JsonValue
  | bool (b : Bool) : JsonValue
  | num (n : Int) : JsonValue
  | str (s : String) : JsonValue
  | arr (xs : List JsonValue) : JsonValue
  | obj (kvs : List (String × JsonValue)) : JsonValue

-- Node-count size of a value, the measure for all fuel arguments.
mutual
/-- Node-count size of a value, the measure for all fuel arguments. -/
def jsize : JsonValue → Nat
  | .null => 1
  | .bool _ => 1
  | .num _ => 1
  | .str _ => 1
  | .arr xs => 1 + jsizeList xs
  | .obj kvs => 1 + jsizeEntries kvs

def jsizeList : List JsonValue → Nat
  | [] => 1
  | x :: xs => 1 + jsize x + jsizeList xs

def jsizeEntries : List (String × JsonValue) → Nat
  | [] => 1
  | (_, v) :: kvs => 1 + jsize v + jsizeEntries kvs
end

/-- JSON insignificant whitespace (RFC 8259 `ws`). -/
def isJsonWs (c : Char) : Bool :=
  c = ' ' || c = '\t' || c = '\n' || c = '\r'

/-- Drop leading JSON whitespace. -/
def skipWs : List Char → List Char
  | [] => []
  | c :: cs => if isJsonWs c then skipWs cs else c :: cs

/-- The two-space indentation prefix at nesting depth `d`, as
`JSON.stringify(_, null, 2)` emits it. -/
def pad (d : Nat) : List Char := List.replicate (2 * d) ' '

/-- One decimal digit character. -/
def digitChar (d : Nat) : Char :=
  match d with
  | 0 => '0' | 1 => '1' | 2 => '2' | 3 => '3' | 4 => '4'
  | 5 => '5' | 6 => '6' | 7 => '7' | 8 => '8' | _ => '9'

/-- Decimal digits of a natural number (fuel-driven so that it is
structural; `natToDigits` supplies enough fuel). -/
def natToDigitsF : Nat → Nat → List Char
  | 0, _ => []
  | f + 1, n => if n < 10 then [digitChar n] else natToDigitsF f (n / 10) ++ [digitChar (n % 10)]

/-- Decimal digits of a natural number, no leading zeros. -/
def natToDigits (n : Nat) : List Char := natToDigitsF (n + 1) n

/-- Decimal text of an integer: what both `String(value)` and
`JSON.stringify` print for a (whole) JS number. -/
def intRepr (n : Int) : List Char :=
  if n < 0 then '-' :: natToDigits n.natAbs else natToDigits n.toNat

/-- One lowercase hexadecimal digit character. -/
def hexDigitOfNat (d : Nat) : Char :=
  match d with
  | 0 => '0' | 1 => '1' | 2 => '2' | 3 => '3' | 4 => '4'
  | 5 => '5' | 6 => '6' | 7 => '7' | 8 => '8' | 9 => '9'
  | 10 => 'a' | 11 => 'b' | 12 => 'c' | 13 => 'd' | 14 => 'e' | _ => 'f'

/-- `JSON.stringify`'s escaping of one character inside a string literal:
quote and backslash get a backslash, the named C0 controls get their short
escapes, other C0 controls get a `\u00xx` escape, everything else is
emitted verbatim. -/
def escapeChar (c : Char) : List Char :=
  if c = '"' then ['\\', '"']
  else if c = '\\' then ['\\', '\\']
  else if c = '\n' then ['\\', 'n']
  else if c = '\r' then ['\\', 'r']
  else if c = '\t' then ['\\', 't']
  else if c.toNat = 8 then ['\\', 'b']
  else if c.toNat = 12 then ['\\', 'f']
  else if c.toNat < 32 then
    ['\\', 'u', '0', '0', hexDigitOfNat (c.toNat / 16), hexDigitOfNat (c.toNat % 16)]
  else [c]

/-- `JSON.stringify`'s escaping of a whole string body. -/
def escapeList : List Char → List Char
  | [] => []
  | c :: cs => escapeChar c ++ escapeList cs

/-- Strict lexicographic order on character lists by Unicode scalar value:
the comparison JavaScript's default `Array.prototype.sort` comparator
applies to the (string) keys in `Object.keys(data).sort()` (line 140). -/
def charsLt : List Char → List Char → Bool
  | [], [] => false
  | [], _ :: _ => true
  | _ :: _, [] => false
  | a :: as, b :: bs => a.toNat < b.toNat || (a = b && charsLt as bs)

/-- Non-strict string comparison used by the sort below. -/
def strLe (a b : String) : Bool := !(charsLt b.data a.data)

/-- The model of `Object.keys(data).sort()`: a stable sort of the key list
by code-point lexicographic order (ECMAScript `Array.prototype.sort` with
the default comparator is exactly a stable sort by string order). -/
def sortStrings (l : List String) : List String :=
  l.insertionSort (fun a b => strLe a b = true)

-- The serializer: JSON.stringify(value, null, 2) at nesting depth d.
mutual
/-- The serializer `JSON.stringify(value, null, 2)` at nesting depth `d`:
two-space indentation, a colon and a space after each object key, `[]` and
the brace pair for the empty composites, keys and elements in storage
order. -/
def stringifyAt : Nat → JsonValue → List Char
  | _, .null => ['n', 'u', 'l', 'l']
  | _, .bool true => ['t', 'r', 'u', 'e']
  | _, .bool false => ['f', 'a', 'l', 's', 'e']
  | _, .num n => intRepr n
  | _, .str s => '"' :: (escapeList s.data ++ ['"'])
  | _, .arr [] => ['[', ']']
  | d, .arr (x :: xs) =>
      '[' :: '\n' :: (pad (d + 1) ++ stringifyAt (d + 1) x ++ arrTail (d + 1) xs
        ++ '\n' :: (pad d ++ [']']))
  | _, .obj [] => ['{', '}']
  | d, .obj ((k, v) :: kvs) =>
      '{' :: '\n' :: (pad (d + 1) ++ '"' :: (escapeList k.data
        ++ '"' :: ':' :: ' ' :: stringifyAt (d + 1) v) ++ objTail (d + 1) kvs
        ++ '\n' :: (pad d ++ ['}']))

def arrTail : Nat → List JsonValue → List Char
  | _, [] => []
  | d, x :: xs => ',' :: '\n' :: (pad d ++ stringifyAt d x ++ arrTail d xs)

def objTail : Nat → List (String × JsonValue) → List Char
  | _, [] => []
  | d, (k, v) :: kvs =>
      ',' :: '\n' :: (pad d ++ '"' :: (escapeList k.data
        ++ '"' :: ':' :: ' ' :: stringifyAt d v) ++ objTail d kvs)
end

/-- `JSON.stringify(this.jsonData, null, 2)` as the save handler calls it
(line 207). -/
def JSON_stringify (v : JsonValue) : String := String.mk (stringifyAt 0 v)

example : JSON_stringify (.obj [("a", .num 1), ("b", .arr [.null])]) =
    "\x7b\n  \"a\": 1,\n  \"b\": [\n    null\n  ]\n\x7d" := by decide

/-- Value of one hexadecimal digit, as `JSON.parse` reads `\uXXXX`. -/
def hexVal (c : Char) : Option Nat :=
  if '0'.toNat ≤ c.toNat ∧ c.toNat ≤ '9'.toNat then some (c.toNat - '0'.toNat)
  else if 'a'.toNat ≤ c.toNat ∧ c.toNat ≤ 'f'.toNat then some (c.toNat - 'a'.toNat + 10)
  else if 'A'.toNat ≤ c.toNat ∧ c.toNat ≤ 'F'.toNat then some (c.toNat - 'A'.toNat + 10)
  else none

/-- The single-character string escapes of the JSON grammar. -/
def simpleUnescape (c : Char) : Option Char :=
  if c = '"' then some '"'
  else if c = '\\' then some '\\'
  else if c = '/' then some '/'
  else if c = 'b' then some (Char.ofNat 8)
  else if c = 'f' then some (Char.ofNat 12)
  else if c = 'n' then some '\n'
  else if c = 'r' then some '\r'
  else if c = 't' then some '\t'
  else none

/-- Parse a JSON string body after its opening quote: stops at the closing
quote, decodes the escapes, rejects raw control characters.  A `\uXXXX`
escape must denote a Unicode scalar value (the lone-surrogate corner of JS
strings is outside the model). -/
def parseStringBody : List Char → Option (List Char × List Char)
  | [] => none
  | c :: rest =>
    if c = '"' then some ([], rest)
    else if c = '\\' then
      match rest with
      | [] => none
      | e :: rest2 =>
        if e = 'u' then
          match rest2 with
          | h1 :: h2 :: h3 :: h4 :: rest3 =>
            match hexVal h1, hexVal h2, hexVal h3, hexVal h4 with
            | some d1, some d2, some d3, some d4 =>
              let n := ((d1 * 16 + d2) * 16 + d3) * 16 + d4
              if h : n.isValidChar then
                (parseStringBody rest3).map (fun p => (Char.ofNat n :: p.1, p.2))
              else none
            | _, _, _, _ => none
          | _ => none
        else
          match simpleUnescape e with
          | some ch => (parseStringBody rest2).map (fun p => (ch :: p.1, p.2))
          | none => none
    else if c.toNat < 32 then none
    else (parseStringBody rest).map (fun p => (c :: p.1, p.2))

/-- Accumulate a run of decimal digits. -/
def parseDigits (acc : Nat) : List Char → Nat × List Char
  | [] => (acc, [])
  | c :: cs =>
      if c.isDigit then parseDigits (acc * 10 + (c.toNat - '0'.toNat)) cs
      else (acc, c :: cs)

/-- True when the input cannot continue a number literal: the guard under
which a parsed number ends.  A following `.`, `e` or `E` would start the
fraction/exponent forms that the integer fragment of the model rejects. -/
def numStop (cs : List Char) : Bool :=
  match cs with
  | [] => true
  | c :: _ => !(c.isDigit || c = '.' || c = 'e' || c = 'E')

/-- Parse an unsigned JSON integer literal: `0`, or a nonzero digit and a
digit run; a leading zero may not be followed by more digits. -/
def parseNatNum : List Char → Option (Nat × List Char)
  | [] => none
  | c :: rest =>
      if c = '0' then
        if numStop rest then some (0, rest) else none
      else if c.isDigit then
        let p := parseDigits (c.toNat - '0'.toNat) rest
        if numStop p.2 then some p else none
      else none

/-- Parse a JSON number (integer fragment), with optional minus sign. -/
def parseNumberVal : List Char → Option (JsonValue × List Char)
  | [] => none
  | c :: rest =>
    if c = '-' then (parseNatNum rest).map (fun p => (.num (-(p.1 : Int)), p.2))
    else (parseNatNum (c :: rest)).map (fun p => (.num (p.1 : Int), p.2))

/-- Match an exact literal suffix (`ull` of `null`, …). -/
def matchLit : List Char → List Char → Option (List Char)
  | [], cs => some cs
  | _ :: _, [] => none
  | l :: ls, c :: cs => if c = l then matchLit ls cs else none

/-- First value bound to key `k` in an association list: JS property read
`data[k]`. -/
def lookupKey (k : String) : List (String × JsonValue) → Option JsonValue
  | [] => none
  | (k', v) :: rest => if k' = k then some v else lookupKey k rest

/-- Remove the binding of key `k` (the first one; parsed objects never hold
two). -/
def removeKey (k : String) : List (String × JsonValue) → List (String × JsonValue)
  | [] => []
  | (k', v) :: rest => if k' = k then rest else (k', v) :: removeKey k rest

/-- JavaScript object building for `JSON.parse`: pairs are assigned left to
right, so with a duplicate key the LAST value wins but the FIRST position
is kept.  `addEntryJS k v rest` prepends the pair `(k, v)` to the
already-built entries `rest` of the later pairs: if `k` occurs in `rest`
its (later, winning) value moves to the front position. -/
def addEntryJS (k : String) (v : JsonValue) (rest : List (String × JsonValue)) :
    List (String × JsonValue) :=
  match lookupKey k rest with
  | some v' => (k, v') :: removeKey k rest
  | none => (k, v) :: rest

-- The recursive-descent JSON reader (fuel-driven, one fuel per value node).
mutual
/-- `JSON.parse`'s value production (integer-number fragment): skips
whitespace, then dispatches on the first character. -/
def parseValueF : Nat → List Char → Option (JsonValue × List Char)
  | 0, _ => none
  | f + 1, cs =>
    match skipWs cs with
    | [] => none
    | c :: rest =>
      if c = 'n' then (matchLit ['u', 'l', 'l'] rest).map (fun r => (.null, r))
      else if c = 't' then (matchLit ['r', 'u', 'e'] rest).map (fun r => (.bool true, r))
      else if c = 'f' then (matchLit ['a', 'l', 's', 'e'] rest).map (fun r => (.bool false, r))
      else if c = '"' then (parseStringBody rest).map (fun p => (.str (String.mk p.1), p.2))
      else if c = '[' then
        match skipWs rest with
        | [] => none
        | c2 :: r2 =>
          if c2 = ']' then some (.arr [], r2)
          else
            match parseValueF f (c2 :: r2) with
            | some (v, r3) => (parseArrayTailF f r3).map (fun p => (.arr (v :: p.1), p.2))
            | none => none
      else if c = '{' then
        match skipWs rest with
        | [] => none
        | c2 :: r2 =>
          if c2 = '}' then some (.obj [], r2)
          else if c2 = '"' then
            match parseStringBody r2 with
            | some (k, r3) =>
              match skipWs r3 with
              | [] => none
              | c3 :: r4 =>
                if c3 = ':' then
                  match parseValueF f r4 with
                  | some (v, r5) =>
                      (parseObjectTailF f r5).map
                        (fun p => (.obj (addEntryJS (String.mk k) v p.1), p.2))
                  | none => none
                else none
            | none => none
          else none
      else parseNumberVal (c :: rest)

/-- After one array element: a comma and another element, or the closing
bracket. -/
def parseArrayTailF : Nat → List Char → Option (List JsonValue × List Char)
  | 0, _ => none
  | f + 1, cs =>
    match skipWs cs with
    | [] => none
    | c :: rest =>
      if c = ']' then some ([], rest)
      else if c = ',' then
        match parseValueF f rest with
        | some (v, r2) => (parseArrayTailF f r2).map (fun p => (v :: p.1, p.2))
        | none => none
      else none

/-- After one object member: a comma and another member, or the closing
brace. -/
def parseObjectTailF : Nat → List Char → Option (List (String × JsonValue) × List Char)
  | 0, _ => none
  | f + 1, cs =>
    match skipWs cs with
    | [] => none
    | c :: rest =>
      if c = '}' then some ([], rest)
      else if c = ',' then
        match skipWs rest with
        | [] => none
        | c2 :: r2 =>
          if c2 = '"' then
            match parseStringBody r2 with
            | some (k, r3) =>
              match skipWs r3 with
              | [] => none
              | c3 :: r4 =>
                if c3 = ':' then
                  match parseValueF f r4 with
                  | some (v, r5) =>
                      (parseObjectTailF f r5).map
                        (fun p => (addEntryJS (String.mk k) v p.1, p.2))
                  | none => none
                else none
            | none => none
          else none
      else none
end

/-- `JSON.parse(fileContent)` as the load handler calls it (line 120):
parse one value, allow only trailing whitespace, fail on anything
malformed.  The fuel `length + 1` is sufficient because every recursive
descent consumes at least one character (proved below for the texts the
serializer emits). -/
def JSON_parse (text : String) : Option JsonValue :=
  match parseValueF (text.data.length + 1) text.data with
  | some (v, rest) =>
    match skipWs rest with
    | [] => some v
    | _ :: _ => none
  | none => none

example : JSON_parse "\x7b\"b\":1,\"a\":\x7b\"c\":true\x7d\x7d" =
    some (.obj [("b", .num 1), ("a", .obj [("c", .bool true)])]) := rfl

example : JSON_parse "\x7binvalid" = none := rfl

example : JSON_parse " [1, -20, \"x\\n\"] " =
    some (.arr [.num 1, .num (-20), .str "x\n"]) := rfl

example : JSON_parse "\x7b\"a\":1,\"b\":2,\"a\":3\x7d" =
    some (.obj [("a", .num 3), ("b", .num 2)]) := rfl

example : JSON_parse "01" = none := rfl

example : JSON_parse (JSON_stringify (.obj [("b", .num 1), ("a", .obj [("c", .bool true)])])) =
    some (.obj [("b", .num 1), ("a", .obj [("c", .bool true)])]) := rfl

/-- One rendered element of `createFields` (lines 135-156): a collapsible
`details` group for a composite child, or an editable text field for a
primitive child.  Display nodes are derived, ephemeral views. -/
inductive DisplayNode where
  | group (label : String) (children : List DisplayNode) : DisplayNode
  | field (label : String) (text : String) : DisplayNode

/-- The key (or stringified index) a display node is labeled with. -/
def nodeLabel : DisplayNode → String
  | .group k _ => k
  | .field k _ => k

/-- The current text of an editable field (empty for a group). -/
def nodeText : DisplayNode → String
  | .group _ _ => ""
  | .field _ t => t

/-- The guard `typeof value === "object" && value !== null` of line 144:
true exactly for arrays and objects (`typeof null` is `"object"` but the
null check excludes it). -/
def isJsComposite : JsonValue → Bool
  | .arr _ => true
  | .obj _ => true
  | _ => false

/-- `String(value)` for the values that reach the field branch of
`createFields` (line 150): `"null"` for null, `"true"`/`"false"` for
booleans, the decimal text for numbers, the text itself for strings.  The
composite branches are dead there (guarded by `isJsComposite`). -/
def jsString : JsonValue → String
  | .null => "null"
  | .bool true => "true"
  | .bool false => "false"
  | .num n => String.mk (intRepr n)
  | .str s => s
  | .arr _ => ""
  | .obj _ => ""

/-- The enumerable own properties of an array value, as `Object.keys`
exposes them: stringified indices `i`, `i+1`, … paired with the
elements. -/
def enumFrom : Nat → List JsonValue → List (String × JsonValue)
  | _, [] => []
  | i, x :: xs => (String.mk (natToDigits i), x) :: enumFrom (i + 1) xs

/-- The own enumerable properties of the value `createFields` receives:
for an object its entries in storage order, for an array its elements
keyed by stringified index (`Object.keys` returns these in ascending
index order).  `createFields` is only ever called on composites, so the
primitive branches are dead. -/
def entriesOf : JsonValue → List (String × JsonValue)
  | .obj kvs => kvs
  | .arr xs => enumFrom 0 xs
  | _ => []

-- The recursive field builder createFields (fuel-driven: one fuel per
-- nesting level and per key, so the recursion is structural and
-- computable; the termination theorem shows any large enough fuel gives
-- the same result).
mutual
/-- `createFields(data, parentEl)` (lines 135-156): sort all keys
lexicographically (`Object.keys(data).sort()`, line 140 — the same routine
for objects AND arrays), then for each key render a group (recursing) for
a composite child and an editable field showing `String(value)` for
anything else. -/
def createFieldsF : Nat → JsonValue → Option (List DisplayNode)
  | 0, _ => none
  | f + 1, data => mapFieldsF f (entriesOf data) (sortStrings ((entriesOf data).map Prod.fst))

/-- The `sortedKeys.forEach` loop body of lines 142-155, one key at a
time. -/
def mapFieldsF : Nat → List (String × JsonValue) → List String → Option (List DisplayNode)
  | 0, _, _ => none
  | _ + 1, _, [] => some []
  | f + 1, entries, key :: ks =>
    match lookupKey key entries with
    | some value =>
      if isJsComposite value then
        match createFieldsF f value, mapFieldsF f entries ks with
        | some children, some rest => some (.group key children :: rest)
        | _, _ => none
      else (mapFieldsF f entries ks).map (fun rest => .field key (jsString value) :: rest)
    | none => (mapFieldsF f entries ks).map (fun rest => .field key "undefined" :: rest)
end

/-- The view's mutable state: `jsonData` (initially the JS `null`,
modelled as `JsonValue.null`) and `filePath` (initially `""`), lines
76-77.  `filePath` is the source identifier used only as the suggested
save-target name (line 195). -/
structure ViewState where
  jsonData : JsonValue
  filePath : String

/-- `displayEditor` (lines 130-164) up to its presentation effects: if the
loaded data is truthy and of object type, build the fields and report
success; otherwise render nothing and report that there is no valid JSON
data.  Every JS-falsy primitive (`null`, `false`, `0`, `""`) and every
truthy non-object primitive alike take the else branch, so the branch is
exactly `isJsComposite`.  The state is read, never written. -/
def displayEditorF (fuel : Nat) (st : ViewState) : ViewState × List DisplayNode × String :=
  if isJsComposite st.jsonData then
    (st, (createFieldsF fuel st.jsonData).getD [], "JSON data displayed successfully!")
  else (st, [], "No valid JSON data to display.")

/-- The file-open handler of `onOpen` (lines 115-127), given the name and
text the picker returned: `this.filePath = file.name` happens BEFORE the
parse attempt; then `JSON.parse` either succeeds (store the document,
notice, render) or throws (notice `"Invalid JSON file."`, nothing else
changes).  Returns the new state and the notices in order. -/
def loadFile (fuel : Nat) (st : ViewState) (name content : String) :
    ViewState × List String :=
  let st1 : ViewState := ⟨st.jsonData, name⟩
  match JSON_parse content with
  | some v =>
    let st2 : ViewState := ⟨v, name⟩
    let r := displayEditorF fuel st2
    (r.1, ["File loaded successfully!", r.2.2])
  | none => (st1, ["Invalid JSON file."])

/-- The save handler (lines 192-211): the suggested file name is the
stored `filePath` and the written text is
`JSON.stringify(this.jsonData, null, 2)`. -/
def saveFile (st : ViewState) : String × String :=
  (st.filePath, JSON_stringify st.jsonData)

/-- JS property read `data[key]` on a composite (string key; for an array
the key is compared against the stringified indices). -/
def jsGet : JsonValue → String → Option JsonValue
  | .obj kvs, k => lookupKey k kvs
  | .arr xs, k => lookupKey k (enumFrom 0 xs)
  | _, _ => none

/-- Replace the value at key `k` in an association list, keeping the
position; append if absent (JS assignment adds missing properties). -/
def assignKey (k : String) (v : JsonValue) : List (String × JsonValue) →
    List (String × JsonValue)
  | [] => [(k, v)]
  | (k', v') :: rest => if k' = k then (k, v) :: rest else (k', v') :: assignKey k v rest

/-- Replace the element whose stringified index is `k`, keeping order and
length (no element matches ⇒ unchanged; the sparse-array corner of JS
assignment beyond the length cannot arise from a rendered field). -/
def assignIdx (i : Nat) (k : String) (v : JsonValue) : List JsonValue → List JsonValue
  | [] => []
  | x :: xs =>
      if String.mk (natToDigits i) = k then v :: xs else x :: assignIdx (i + 1) k v xs

/-- JS property assignment `data[key] = v` on a composite. -/
def jsAssign : JsonValue → String → JsonValue → JsonValue
  | .obj kvs, k, v => .obj (assignKey k v kvs)
  | .arr xs, k, v => .arr (assignIdx 0 k v xs)
  | d, _, _ => d

/-- The commit of the `onChange` handler (lines 150-152), lifted to the
document root: the field created for key `key` of the (nested) container
`data` runs `data[key] = newValue` — it ALWAYS stores the raw text
`newValue` as a string, whatever the previous value's type was, and emits
no notice.  A path is the chain of keys (stringified indices for arrays)
from the root to the edited field. -/
def commitEdit : JsonValue → List String → String → JsonValue
  | data, [], _ => data
  | data, [k], text => jsAssign data k (.str text)
  | data, k :: rest, text =>
    match jsGet data k with
    | some child => jsAssign data k (commitEdit child rest text)
    | none => data

/-- Resolve a path against a value (read of §4.1, restricted to the paths
the rendered fields are bound to). -/
def readPath : JsonValue → List String → Option JsonValue
  | data, [] => some data
  | data, k :: rest =>
    match jsGet data k with
    | some child => readPath child rest
    | none => none

/-- The storage-order skeleton of a document: every composite node's keys
(stringified indices for arrays) in storage order, with primitive leaves
erased.  Two documents with equal skeletons serialize their keys in the
same order at every nesting level. -/
inductive KeyTree where
  | leaf : KeyTree
  | node (children : List (String × KeyTree)) : KeyTree

-- The skeleton of a value.
mutual
/-- Storage-order skeleton of a value (see `KeyTree`). -/
def keyShape : JsonValue → KeyTree
  | .null => .leaf
  | .bool _ => .leaf
  | .num _ => .leaf
  | .str _ => .leaf
  | .arr xs => .node (keyShapeList 0 xs)
  | .obj kvs => .node (keyShapeEntries kvs)

def keyShapeList : Nat → List JsonValue → List (String × KeyTree)
  | _, [] => []
  | i, x :: xs => (String.mk (natToDigits i), keyShape x) :: keyShapeList (i + 1) xs

def keyShapeEntries : List (String × JsonValue) → List (String × KeyTree)
  | [] => []
  | (k, v) :: kvs => (k, keyShape v) :: keyShapeEntries kvs
end

/-- Well-formedness invariant of every parsed document (§3): object keys
are unique at every level.  `JSON.parse` can only produce such values (its
duplicate-key collapsing, `addEntryJS`, enforces it), proved below. -/
inductive WF : JsonValue → Prop
  | null : WF .null
  | bool (b : Bool) : WF (.bool b)
  | num (n : Int) : WF (.num n)
  | str (s : String) : WF (.str s)
  | arr (xs : List JsonValue) : (∀ x ∈ xs, WF x) → WF (.arr xs)
  | obj (kvs : List (String × JsonValue)) : (∀ kv ∈ kvs, WF kv.2) →
      (kvs.map Prod.fst).Nodup → WF (.obj kvs)

example : (createFieldsF 20 (.obj [("b", .num 1), ("a", .obj [("c", .bool true)])])).map
      (fun l => l.map nodeLabel) = some ["a", "b"] := rfl

example : commitEdit (.obj [("b", .num 1), ("a", .obj [("c", .bool true)])])
      ["a", "c"] "false" = .obj [("b", .num 1), ("a", .obj [("c", .str "false")])] := rfl

/-! ### Order facts for the key sort -/

theorem char_toNat_inj {a b : Char} (h : a.toNat = b.toNat) : a = b := by
  have hh := Char.ofNat_toNat a
  rw [h] at hh
  rw [← hh, Char.ofNat_toNat]

theorem charsLt_asymm : ∀ a b : List Char, charsLt a b = true → charsLt b a = false := by
  intro a
  induction a with
  | nil => intro b h; cases b <;> simp [charsLt]
  | cons x xs ih =>
    intro b h
    cases b with
    | nil => simp [charsLt] at h
    | cons y ys =>
      simp only [charsLt, Bool.or_eq_true, Bool.and_eq_true, decide_eq_true_eq] at h
      rcases h with h | ⟨rfl, h⟩
      · have h1 : ¬ (y.toNat < x.toNat) := by omega
        have h2 : y ≠ x := fun he => absurd (congrArg Char.toNat he) (by omega)
        simp [charsLt, h1, h2]
      · have h1 : ¬ (x.toNat < x.toNat) := by omega
        simp [charsLt, h1, ih ys h]

theorem charsLt_cotrans :
    ∀ a b c : List Char, charsLt a c = true → charsLt a b = true ∨ charsLt b c = true := by
  intro a
  induction a with
  | nil =>
    intro b c h
    cases c with
    | nil => simp [charsLt] at h
    | cons y ys =>
      cases b with
      | nil => right; exact h
      | cons z zs => left; simp [charsLt]
  | cons x xs ih =>
    intro b c h
    cases c with
    | nil => simp [charsLt] at h
    | cons y ys =>
      cases b with
      | nil => right; simp [charsLt]
      | cons z zs =>
        simp only [charsLt, Bool.or_eq_true, Bool.and_eq_true, decide_eq_true_eq] at h ⊢
        rcases h with h | ⟨rfl, h⟩
        · by_cases hxz : x.toNat < z.toNat
          · left; left; exact hxz
          · right; left; omega
        · by_cases hxz : x.toNat < z.toNat
          · left; left; exact hxz
          · by_cases hzy : z.toNat < x.toNat
            · right; left; exact hzy
            · have hz : z = x := char_toNat_inj (by omega)
              subst hz
              rcases ih zs ys h with h2 | h2
              · left; right; exact ⟨rfl, h2⟩
              · right; right; exact ⟨rfl, h2⟩

theorem strLe_total : ∀ a b : String, strLe a b = true ∨ strLe b a = true := by
  intro a b
  unfold strLe
  cases h : charsLt b.data a.data with
  | false => left; rfl
  | true => right; simp [charsLt_asymm _ _ h]

theorem strLe_trans : ∀ a b c : String,
    strLe a b = true → strLe b c = true → strLe a c = true := by
  intro a b c hab hbc
  unfold strLe at hab hbc ⊢
  simp only [Bool.not_eq_true'] at hab hbc ⊢
  by_contra hca
  simp only [Bool.not_eq_false] at hca
  rcases charsLt_cotrans c.data b.data a.data hca with h | h
  · rw [h] at hbc; exact Bool.noConfusion hbc
  · rw [h] at hab; exact Bool.noConfusion hab

/-- The comparator relation of the key sort, as needed by the Mathlib sort
lemmas. -/
instance : IsTotal String (fun a b => strLe a b = true) := ⟨strLe_total⟩

instance : IsTrans String (fun a b => strLe a b = true) := ⟨strLe_trans⟩

theorem sortStrings_perm (l : List String) : (sortStrings l).Perm l :=
  List.perm_insertionSort _ l

theorem sortStrings_sorted (l : List String) :
    List.Sorted (fun a b => strLe a b = true) (sortStrings l) :=
  List.sorted_insertionSort _ l

/-! ### The display forest: labels, ordering, termination -/

theorem mapFieldsF_labels : ∀ (ks : List String) (f : Nat)
    (entries : List (String × JsonValue)) (ds : List DisplayNode),
    mapFieldsF f entries ks = some ds → ds.map nodeLabel = ks := by
  intro ks
  induction ks with
  | nil =>
    intro f entries ds h
    cases f with
    | zero => exact absurd h (by simp [mapFieldsF])
    | succ f =>
      simp only [mapFieldsF, Option.some.injEq] at h
      subst h
      rfl
  | cons k ks ih =>
    intro f entries ds h
    cases f with
    | zero => exact absurd h (by simp [mapFieldsF])
    | succ f =>
      simp only [mapFieldsF] at h
      cases hl : lookupKey k entries with
      | some value =>
        rw [hl] at h
        simp only at h
        by_cases hc : isJsComposite value = true
        · rw [if_pos hc] at h
          cases hcf : createFieldsF f value with
          | none => rw [hcf] at h; exact absurd h (by simp)
          | some ch =>
            rw [hcf] at h
            cases hm : mapFieldsF f entries ks with
            | none => rw [hm] at h; exact absurd h (by simp)
            | some rest =>
              rw [hm] at h
              simp only [Option.some.injEq] at h
              subst h
              simp [nodeLabel, ih f entries rest hm]
        · rw [if_neg hc] at h
          cases hm : mapFieldsF f entries ks with
          | none => rw [hm] at h; exact absurd h (by simp)
          | some rest =>
            rw [hm] at h
            simp only [Option.map_some', Option.some.injEq] at h
            subst h
            simp [nodeLabel, ih f entries rest hm]
      | none =>
        rw [hl] at h
        simp only at h
        cases hm : mapFieldsF f entries ks with
        | none => rw [hm] at h; exact absurd h (by simp)
        | some rest =>
          rw [hm] at h
          simp only [Option.map_some', Option.some.injEq] at h
          subst h
          simp [nodeLabel, ih f entries rest hm]

theorem createFieldsF_labels : ∀ (f : Nat) (v : JsonValue) (ds : List DisplayNode),
    createFieldsF f v = some ds →
    ds.map nodeLabel = sortStrings ((entriesOf v).map Prod.fst) := by
  intro f v ds h
  cases f with
  | zero => exact absurd h (by simp [createFieldsF])
  | succ f =>
    simp only [createFieldsF] at h
    exact mapFieldsF_labels _ _ _ _ h

/-- The nesting-closed display invariant: every collapsible group, at any
depth, lists its children in lexicographic label order. -/
inductive SortedNode : DisplayNode → Prop
  | field (k t : String) : SortedNode (.field k t)
  | group (k : String) (ch : List DisplayNode) :
      List.Sorted (fun a b => strLe a b = true) (ch.map nodeLabel) →
      (∀ c ∈ ch, SortedNode c) → SortedNode (.group k ch)

theorem createFieldsF_sortedNodes : ∀ f : Nat,
    (∀ v ds, createFieldsF f v = some ds → ∀ c ∈ ds, SortedNode c) ∧
    (∀ entries ks ds, mapFieldsF f entries ks = some ds → ∀ c ∈ ds, SortedNode c) := by
  intro f
  induction f with
  | zero =>
    constructor
    · intro v ds h; exact absurd h (by simp [createFieldsF])
    · intro entries ks ds h; exact absurd h (by simp [mapFieldsF])
  | succ f ih =>
    obtain ⟨ihc, ihm⟩ := ih
    constructor
    · intro v ds h c hc
      simp only [createFieldsF] at h
      exact ihm _ _ _ h c hc
    · intro entries ks ds h c hc
      cases ks with
      | nil =>
        simp only [mapFieldsF, Option.some.injEq] at h
        subst h
        exact absurd hc (by simp)
      | cons k ks =>
        simp only [mapFieldsF] at h
        cases hl : lookupKey k entries with
        | some value =>
          rw [hl] at h
          simp only at h
          by_cases hcomp : isJsComposite value = true
          · rw [if_pos hcomp] at h
            cases hcf : createFieldsF f value with
            | none => rw [hcf] at h; exact absurd h (by simp)
            | some ch =>
              rw [hcf] at h
              cases hm : mapFieldsF f entries ks with
              | none => rw [hm] at h; exact absurd h (by simp)
              | some rest =>
                rw [hm] at h
                simp only [Option.some.injEq] at h
                subst h
                rcases List.mem_cons.mp hc with rfl | hc2
                · refine SortedNode.group k ch ?_ (ihc _ _ hcf)
                  rw [createFieldsF_labels f value ch hcf]
                  exact sortStrings_sorted _
                · exact ihm _ _ _ hm c hc2
          · rw [if_neg hcomp] at h
            cases hm : mapFieldsF f entries ks with
            | none => rw [hm] at h; exact absurd h (by simp)
            | some rest =>
              rw [hm] at h
              simp only [Option.map_some', Option.some.injEq] at h
              subst h
              rcases List.mem_cons.mp hc with rfl | hc2
              · exact SortedNode.field _ _
              · exact ihm _ _ _ hm c hc2
        | none =>
          rw [hl] at h
          simp only at h
          cases hm : mapFieldsF f entries ks with
          | none => rw [hm] at h; exact absurd h (by simp)
          | some rest =>
            rw [hm] at h
            simp only [Option.map_some', Option.some.injEq] at h
            subst h
            rcases List.mem_cons.mp hc with rfl | hc2
            · exact SortedNode.field _ _
            · exact ihm _ _ _ hm c hc2

theorem createFieldsF_mono_succ : ∀ f : Nat,
    (∀ v ds, createFieldsF f v = some ds → createFieldsF (f + 1) v = some ds) ∧
    (∀ entries ks ds, mapFieldsF f entries ks = some ds →
      mapFieldsF (f + 1) entries ks = some ds) := by
  intro f
  induction f with
  | zero =>
    constructor
    · intro v ds h; exact absurd h (by simp [createFieldsF])
    · intro entries ks ds h; exact absurd h (by simp [mapFieldsF])
  | succ f ih =>
    obtain ⟨ihc, ihm⟩ := ih
    constructor
    · intro v ds h
      simp only [createFieldsF] at h ⊢
      exact ihm _ _ _ h
    · intro entries ks ds h
      cases ks with
      | nil => simpa [mapFieldsF] using h
      | cons k ks =>
        simp only [mapFieldsF] at h ⊢
        cases hl : lookupKey k entries with
        | some value =>
          rw [hl] at h
          simp only at h ⊢
          by_cases hcomp : isJsComposite value = true
          · rw [if_pos hcomp] at h ⊢
            cases hcf : createFieldsF f value with
            | none => rw [hcf] at h; exact absurd h (by simp)
            | some ch =>
              rw [hcf] at h
              cases hm : mapFieldsF f entries ks with
              | none => rw [hm] at h; exact absurd h (by simp)
              | some rest =>
                rw [hm] at h
                rw [ihc _ _ hcf, ihm _ _ _ hm]
                exact h
          · rw [if_neg hcomp] at h ⊢
            cases hm : mapFieldsF f entries ks with
            | none => rw [hm] at h; exact absurd h (by simp)
            | some rest =>
              rw [hm] at h
              rw [ihm _ _ _ hm]
              exact h
        | none =>
          rw [hl] at h
          simp only at h ⊢
          cases hm : mapFieldsF f entries ks with
          | none => rw [hm] at h; exact absurd h (by simp)
          | some rest =>
            rw [hm] at h
            rw [ihm _ _ _ hm]
            exact h

theorem createFieldsF_mono {f g : Nat} {v : JsonValue} {ds : List DisplayNode}
    (hle : f ≤ g) (h : createFieldsF f v = some ds) : createFieldsF g v = some ds := by
  induction hle with
  | refl => exact h
  | step _ ih => exact (createFieldsF_mono_succ _).1 _ _ ih

theorem mapFieldsF_mono {f g : Nat} {entries : List (String × JsonValue)}
    {ks : List String} {ds : List DisplayNode}
    (hle : f ≤ g) (h : mapFieldsF f entries ks = some ds) :
    mapFieldsF g entries ks = some ds := by
  induction hle with
  | refl => exact h
  | step _ ih => exact (createFieldsF_mono_succ _).2 _ _ _ ih

theorem jsize_pos : ∀ v : JsonValue, 1 ≤ jsize v := by
  intro v
  cases v <;> simp [jsize]

theorem jsize_lt_jsizeEntries {k : String} {c : JsonValue} :
    ∀ kvs : List (String × JsonValue), (k, c) ∈ kvs → jsize c < jsizeEntries kvs := by
  intro kvs
  induction kvs with
  | nil => intro h; exact absurd h (by simp)
  | cons kv rest ih =>
    intro h
    rcases List.mem_cons.mp h with rfl | h2
    · simp [jsizeEntries]; omega
    · have := ih h2
      obtain ⟨k0, v0⟩ := kv
      simp [jsizeEntries]
      omega

theorem jsize_lt_jsizeList {c : JsonValue} :
    ∀ xs : List JsonValue, c ∈ xs → jsize c < jsizeList xs := by
  intro xs
  induction xs with
  | nil => intro h; exact absurd h (by simp)
  | cons x rest ih =>
    intro h
    rcases List.mem_cons.mp h with rfl | h2
    · simp [jsizeList]; omega
    · have := ih h2
      simp [jsizeList]
      omega

theorem mem_of_mem_enumFrom {k : String} {c : JsonValue} :
    ∀ (xs : List JsonValue) (i : Nat), (k, c) ∈ enumFrom i xs → c ∈ xs := by
  intro xs
  induction xs with
  | nil => intro i h; exact absurd h (by simp [enumFrom])
  | cons x rest ih =>
    intro i h
    simp only [enumFrom, List.mem_cons] at h
    rcases h with h | h
    · rw [show c = x from congrArg Prod.snd h]
      exact List.mem_cons_self _ _
    · right; exact ih (i + 1) h

theorem lookupKey_mem {k : String} {c : JsonValue} :
    ∀ entries : List (String × JsonValue), lookupKey k entries = some c → (k, c) ∈ entries := by
  intro entries
  induction entries with
  | nil => intro h; exact absurd h (by simp [lookupKey])
  | cons kv rest ih =>
    obtain ⟨k0, v0⟩ := kv
    intro h
    simp only [lookupKey] at h
    by_cases he : k0 = k
    · rw [if_pos he] at h
      simp only [Option.some.injEq] at h
      subst h
      subst he
      exact List.mem_cons_self _ _
    · rw [if_neg he] at h
      exact List.mem_cons_of_mem _ (ih h)

theorem jsize_lt_of_lookup {v : JsonValue} {k : String} {c : JsonValue}
    (h : lookupKey k (entriesOf v) = some c) : jsize c < jsize v := by
  have hm := lookupKey_mem _ h
  cases v with
  | null => exact absurd hm (by simp [entriesOf] at hm)
  | bool b => exact absurd hm (by simp [entriesOf] at hm)
  | num n => exact absurd hm (by simp [entriesOf] at hm)
  | str s => exact absurd hm (by simp [entriesOf] at hm)
  | arr xs =>
    have hx : c ∈ xs := mem_of_mem_enumFrom xs 0 hm
    have := jsize_lt_jsizeList xs hx
    simp [jsize]
    omega
  | obj kvs =>
    have := jsize_lt_jsizeEntries kvs hm
    simp [jsize]
    omega

theorem mapFieldsF_ex (entries : List (String × JsonValue))
    (hchild : ∀ k c, lookupKey k entries = some c →
      ∃ f ds, createFieldsF f c = some ds) :
    ∀ ks : List String, ∃ f ds, mapFieldsF f entries ks = some ds := by
  intro ks
  induction ks with
  | nil => exact ⟨1, [], rfl⟩
  | cons k ks ih =>
    obtain ⟨f2, rest, h2⟩ := ih
    cases hl : lookupKey k entries with
    | none =>
      refine ⟨f2 + 1, .field k "undefined" :: rest, ?_⟩
      simp only [mapFieldsF, hl]
      simp [h2]
    | some c =>
      by_cases hcomp : isJsComposite c = true
      · obtain ⟨f1, ch, h1⟩ := hchild k c hl
        refine ⟨max f1 f2 + 1, .group k ch :: rest, ?_⟩
        simp only [mapFieldsF, hl]
        simp only [if_pos hcomp]
        rw [createFieldsF_mono (Nat.le_max_left f1 f2) h1,
          mapFieldsF_mono (Nat.le_max_right f1 f2) h2]
      · refine ⟨f2 + 1, .field k (jsString c) :: rest, ?_⟩
        simp only [mapFieldsF, hl]
        simp [if_neg hcomp, h2]

theorem createFieldsF_ex : ∀ (n : Nat) (v : JsonValue), jsize v ≤ n →
    ∃ f ds, createFieldsF f v = some ds := by
  intro n
  induction n with
  | zero => intro v h; exact absurd h (by have := jsize_pos v; omega)
  | succ n ih =>
    intro v hv
    have hchild : ∀ k c, lookupKey k (entriesOf v) = some c →
        ∃ f ds, createFieldsF f c = some ds := by
      intro k c hl
      have := jsize_lt_of_lookup hl
      exact ih c (by omega)
    obtain ⟨f, ds, h⟩ := mapFieldsF_ex (entriesOf v) hchild
      (sortStrings ((entriesOf v).map Prod.fst))
    exact ⟨f + 1, ds, by simp only [createFieldsF]; exact h⟩

/-! ### The edit commit: value at the path, frame preservation -/

theorem readPath_single (data : JsonValue) (k : String) :
    readPath data [k] = jsGet data k := by
  cases h : jsGet data k <;> simp [readPath, h]

theorem lookupKey_assignKey_self {k : String} {w : JsonValue} :
    ∀ (kvs : List (String × JsonValue)) (v : JsonValue),
    lookupKey k kvs = some v → lookupKey k (assignKey k w kvs) = some w := by
  intro kvs
  induction kvs with
  | nil => intro v h; exact absurd h (by simp [lookupKey])
  | cons kv rest ih =>
    obtain ⟨k0, v0⟩ := kv
    intro v h
    simp only [lookupKey, assignKey] at h ⊢
    by_cases he : k0 = k
    · rw [if_pos he]
      simp [lookupKey]
    · rw [if_neg he] at h ⊢
      simp only [lookupKey, if_neg he]
      exact ih v h

theorem assignKey_self {k : String} :
    ∀ (kvs : List (String × JsonValue)) (v : JsonValue),
    lookupKey k kvs = some v → assignKey k v kvs = kvs := by
  intro kvs
  induction kvs with
  | nil => intro v h; exact absurd h (by simp [lookupKey])
  | cons kv rest ih =>
    obtain ⟨k0, v0⟩ := kv
    intro v h
    simp only [lookupKey] at h
    by_cases he : k0 = k
    · rw [if_pos he] at h
      simp only [Option.some.injEq] at h
      subst h
      subst he
      simp [assignKey]
    · rw [if_neg he] at h
      simp [assignKey, if_neg he, ih v h]

theorem keyShapeEntries_assignKey {k : String} {w v : JsonValue} :
    ∀ kvs : List (String × JsonValue), lookupKey k kvs = some v →
    keyShape w = keyShape v →
    keyShapeEntries (assignKey k w kvs) = keyShapeEntries kvs := by
  intro kvs
  induction kvs with
  | nil => intro h hs; exact absurd h (by simp [lookupKey])
  | cons kv rest ih =>
    obtain ⟨k0, v0⟩ := kv
    intro h hs
    simp only [lookupKey] at h
    by_cases he : k0 = k
    · rw [if_pos he] at h
      simp only [Option.some.injEq] at h
      subst h
      subst he
      simp [assignKey, keyShapeEntries, hs]
    · rw [if_neg he] at h
      simp [assignKey, if_neg he, keyShapeEntries, ih h hs]

theorem lookup_enum_assignIdx {k : String} {w v : JsonValue} :
    ∀ (xs : List JsonValue) (i : Nat), lookupKey k (enumFrom i xs) = some v →
    lookupKey k (enumFrom i (assignIdx i k w xs)) = some w := by
  intro xs
  induction xs with
  | nil => intro i h; exact absurd h (by simp [enumFrom, lookupKey])
  | cons x rest ih =>
    intro i h
    simp only [enumFrom, lookupKey] at h
    by_cases he : String.mk (natToDigits i) = k
    · rw [if_pos he] at h
      simp [assignIdx, if_pos he, enumFrom, lookupKey, he]
    · rw [if_neg he] at h
      simp only [assignIdx, if_neg he, enumFrom, lookupKey]
      exact ih (i + 1) h

theorem assignIdx_self {k : String} :
    ∀ (xs : List JsonValue) (i : Nat) (v : JsonValue),
    lookupKey k (enumFrom i xs) = some v → assignIdx i k v xs = xs := by
  intro xs
  induction xs with
  | nil => intro i v h; exact absurd h (by simp [enumFrom, lookupKey])
  | cons x rest ih =>
    intro i v h
    simp only [enumFrom, lookupKey] at h
    by_cases he : String.mk (natToDigits i) = k
    · rw [if_pos he] at h
      simp only [Option.some.injEq] at h
      subst h
      simp [assignIdx, if_pos he]
    · rw [if_neg he] at h
      simp [assignIdx, if_neg he, ih (i + 1) v h]

theorem keyShapeList_assignIdx {k : String} {w v : JsonValue} :
    ∀ (xs : List JsonValue) (i : Nat), lookupKey k (enumFrom i xs) = some v →
    keyShape w = keyShape v →
    keyShapeList i (assignIdx i k w xs) = keyShapeList i xs := by
  intro xs
  induction xs with
  | nil => intro i h hs; exact absurd h (by simp [enumFrom, lookupKey])
  | cons x rest ih =>
    intro i h hs
    simp only [enumFrom, lookupKey] at h
    by_cases he : String.mk (natToDigits i) = k
    · rw [if_pos he] at h
      simp only [Option.some.injEq] at h
      subst h
      simp [assignIdx, if_pos he, keyShapeList, hs]
    · rw [if_neg he] at h
      simp [assignIdx, if_neg he, keyShapeList, ih (i + 1) h hs]

theorem jsGet_assign_self {data : JsonValue} {k : String} {v w : JsonValue}
    (h : jsGet data k = some v) : jsGet (jsAssign data k w) k = some w := by
  cases data with
  | obj kvs => exact lookupKey_assignKey_self kvs v h
  | arr xs => exact lookup_enum_assignIdx xs 0 h
  | null => exact absurd h (by simp [jsGet])
  | bool b => exact absurd h (by simp [jsGet])
  | num n => exact absurd h (by simp [jsGet])
  | str s => exact absurd h (by simp [jsGet])

theorem jsAssign_self {data : JsonValue} {k : String} {v : JsonValue}
    (h : jsGet data k = some v) : jsAssign data k v = data := by
  cases data with
  | obj kvs => simp only [jsAssign]; rw [assignKey_self kvs v h]
  | arr xs => simp only [jsAssign]; rw [assignIdx_self xs 0 v h]
  | null => exact absurd h (by simp [jsGet])
  | bool b => exact absurd h (by simp [jsGet])
  | num n => exact absurd h (by simp [jsGet])
  | str s => exact absurd h (by simp [jsGet])

theorem keyShape_jsAssign {data : JsonValue} {k : String} {v w : JsonValue}
    (h : jsGet data k = some v) (hs : keyShape w = keyShape v) :
    keyShape (jsAssign data k w) = keyShape data := by
  cases data with
  | obj kvs =>
    simp only [jsAssign, keyShape]
    rw [keyShapeEntries_assignKey kvs h hs]
  | arr xs =>
    simp only [jsAssign, keyShape]
    rw [keyShapeList_assignIdx xs 0 h hs]
  | null => exact absurd h (by simp [jsGet])
  | bool b => exact absurd h (by simp [jsGet])
  | num n => exact absurd h (by simp [jsGet])
  | str s => exact absurd h (by simp [jsGet])

theorem readPath_commitEdit {t : String} :
    ∀ (path : List String) (data v : JsonValue), readPath data path = some v →
    path ≠ [] → readPath (commitEdit data path t) path = some (.str t) := by
  intro path
  induction path with
  | nil => intro data v h hne; exact absurd rfl hne
  | cons k rest ih =>
    intro data v h hne
    cases rest with
    | nil =>
      rw [readPath_single] at h
      simp only [commitEdit]
      rw [readPath_single]
      exact jsGet_assign_self h
    | cons k2 rs =>
      simp only [readPath] at h
      cases hg : jsGet data k with
      | none => rw [hg] at h; exact absurd h (by simp)
      | some child =>
        rw [hg] at h
        simp only at h
        have hrec := ih child v h (by simp)
        simp only [commitEdit, hg]
        simp only [readPath, jsGet_assign_self hg]
        exact hrec

theorem commitEdit_self_str {s : String} :
    ∀ (path : List String) (data : JsonValue),
    readPath data path = some (.str s) → commitEdit data path s = data := by
  intro path
  induction path with
  | nil => intro data h; rfl
  | cons k rest ih =>
    intro data h
    cases rest with
    | nil =>
      rw [readPath_single] at h
      simp only [commitEdit]
      exact jsAssign_self h
    | cons k2 rs =>
      simp only [readPath] at h
      cases hg : jsGet data k with
      | none => rw [hg] at h; exact absurd h (by simp)
      | some child =>
        rw [hg] at h
        simp only at h
        simp only [commitEdit, hg]
        rw [ih child h]
        exact jsAssign_self hg

theorem keyShape_leaf_of_not_composite {v : JsonValue} (h : isJsComposite v = false) :
    keyShape v = .leaf := by
  cases v <;> simp [keyShape] <;> simp [isJsComposite] at h

theorem keyShape_commitEdit {t : String} :
    ∀ (path : List String) (data v : JsonValue), readPath data path = some v →
    isJsComposite v = false →
    keyShape (commitEdit data path t) = keyShape data := by
  intro path
  induction path with
  | nil => intro data v h hp; rfl
  | cons k rest ih =>
    intro data v h hp
    cases rest with
    | nil =>
      rw [readPath_single] at h
      simp only [commitEdit]
      exact keyShape_jsAssign h
        (by rw [keyShape_leaf_of_not_composite hp]; rfl)
    | cons k2 rs =>
      simp only [readPath] at h
      cases hg : jsGet data k with
      | none => rw [hg] at h; exact absurd h (by simp)
      | some child =>
        rw [hg] at h
        simp only at h
        simp only [commitEdit, hg]
        exact keyShape_jsAssign hg (ih child v h hp)

/-! ### Whitespace and decimal-digit facts for the parse/serialize round trip -/

theorem skipWs_replicate_space : ∀ (n : Nat) (l : List Char),
    skipWs (List.replicate n ' ' ++ l) = skipWs l := by
  intro n
  induction n with
  | zero => intro l; rfl
  | succ n ih =>
    intro l
    simp only [List.replicate_succ, List.cons_append, skipWs]
    rw [if_pos (by decide)]
    exact ih l

theorem skipWs_pad (d : Nat) (l : List Char) : skipWs (pad d ++ l) = skipWs l :=
  skipWs_replicate_space (2 * d) l

theorem skipWs_cons_of_ws {c : Char} (h : isJsonWs c = true) (l : List Char) :
    skipWs (c :: l) = skipWs l := by
  simp [skipWs, h]

theorem skipWs_cons_of_not_ws {c : Char} (h : isJsonWs c = false) (l : List Char) :
    skipWs (c :: l) = c :: l := by
  simp [skipWs, h]

theorem digitChar_isDigit : ∀ d : Nat, (digitChar d).isDigit = true := by
  intro d
  unfold digitChar
  split <;> decide

theorem digitChar_toNat {d : Nat} (h : d < 10) : (digitChar d).toNat = 48 + d := by
  interval_cases d <;> decide

theorem digitChar_eq_zero_iff : ∀ d : Nat, digitChar d = '0' ↔ d = 0 := by
  intro d
  unfold digitChar
  split <;> simp_all

theorem natToDigits_lt {n : Nat} (h : n < 10) : natToDigits n = [digitChar n] := by
  unfold natToDigits
  simp [natToDigitsF, h]

theorem natToDigitsF_congr : ∀ (f1 f2 n : Nat), n < f1 → n < f2 →
    natToDigitsF f1 n = natToDigitsF f2 n := by
  intro f1
  induction f1 with
  | zero => intro f2 n h1 h2; omega
  | succ f1 ih =>
    intro f2 n h1 h2
    cases f2 with
    | zero => omega
    | succ f2 =>
      simp only [natToDigitsF]
      by_cases hn : n < 10
      · simp [hn]
      · rw [if_neg hn, if_neg hn,
          ih f2 (n / 10) (by omega) (by omega)]

theorem natToDigits_ge {n : Nat} (h : 10 ≤ n) :
    natToDigits n = natToDigits (n / 10) ++ [digitChar (n % 10)] := by
  show natToDigitsF (n + 1) n = natToDigitsF (n / 10 + 1) (n / 10) ++ [digitChar (n % 10)]
  conv_lhs => rw [natToDigitsF]
  rw [if_neg (by omega)]
  rw [natToDigitsF_congr n (n / 10 + 1) (n / 10) (by omega) (by omega)]

theorem natToDigits_all_digit : ∀ n : Nat, ∀ c ∈ natToDigits n, c.isDigit = true := by
  intro n
  induction n using Nat.strong_induction_on with
  | _ n ih =>
    by_cases h : n < 10
    · rw [natToDigits_lt h]
      intro c hc
      simp only [List.mem_singleton] at hc
      subst hc
      exact digitChar_isDigit n
    · rw [natToDigits_ge (by omega)]
      intro c hc
      rcases List.mem_append.mp hc with hc | hc
      · exact ih (n / 10) (by omega) c hc
      · simp only [List.mem_singleton] at hc
        subst hc
        exact digitChar_isDigit _

theorem natToDigits_ne_nil : ∀ n : Nat, natToDigits n ≠ [] := by
  intro n
  by_cases h : n < 10
  · rw [natToDigits_lt h]; simp
  · rw [natToDigits_ge (by omega)]; simp

theorem natToDigits_head_ne_zero : ∀ n : Nat, 0 < n → ∀ c t,
    natToDigits n = c :: t → c ≠ '0' := by
  intro n
  induction n using Nat.strong_induction_on with
  | _ n ih =>
    intro hn c t h
    by_cases h10 : n < 10
    · rw [natToDigits_lt h10] at h
      simp only [List.cons.injEq] at h
      obtain ⟨rfl, -⟩ := h
      intro hz
      rw [digitChar_eq_zero_iff] at hz
      omega
    · rw [natToDigits_ge (by omega)] at h
      cases hd : natToDigits (n / 10) with
      | nil => exact absurd hd (natToDigits_ne_nil _)
      | cons c0 t0 =>
        rw [hd] at h
        simp only [List.cons_append, List.cons.injEq] at h
        obtain ⟨rfl, -⟩ := h
        exact ih (n / 10) (by omega) (by omega) c0 t0 hd

/-- The accumulator view of a digit run's numeric value. -/
def digitsVal (acc : Nat) : List Char → Nat
  | [] => acc
  | c :: cs => digitsVal (acc * 10 + (c.toNat - '0'.toNat)) cs

/-- True when the input does not start with a digit. -/
def headNotDigit : List Char → Bool
  | [] => true
  | c :: _ => !c.isDigit

theorem numStop_headNotDigit {rest : List Char} (h : numStop rest = true) :
    headNotDigit rest = true := by
  cases rest with
  | nil => rfl
  | cons c l =>
    simp only [numStop, Bool.not_eq_true', Bool.or_eq_false_iff] at h
    simp [headNotDigit, h.1]

theorem parseDigits_spec : ∀ (l : List Char) (acc : Nat) (rest : List Char),
    (∀ c ∈ l, c.isDigit = true) → headNotDigit rest = true →
    parseDigits acc (l ++ rest) = (digitsVal acc l, rest) := by
  intro l
  induction l with
  | nil =>
    intro acc rest hd hr
    cases rest with
    | nil => rfl
    | cons c t =>
      simp only [headNotDigit, Bool.not_eq_true'] at hr
      rw [List.nil_append]
      simp only [parseDigits]
      rw [hr, if_neg (by decide)]
      rfl
  | cons c cs ih =>
    intro acc rest hd hr
    have hc : c.isDigit = true := hd c (List.mem_cons_self _ _)
    rw [List.cons_append]
    simp only [parseDigits]
    rw [hc, if_pos rfl]
    rw [ih _ rest (fun x hx => hd x (List.mem_cons_of_mem _ hx)) hr]
    rfl

theorem digitsVal_append : ∀ (l1 l2 : List Char) (acc : Nat),
    digitsVal acc (l1 ++ l2) = digitsVal (digitsVal acc l1) l2 := by
  intro l1
  induction l1 with
  | nil => intro l2 acc; rfl
  | cons c cs ih =>
    intro l2 acc
    rw [List.cons_append]
    show digitsVal (acc * 10 + (c.toNat - '0'.toNat)) (cs ++ l2) =
      digitsVal (digitsVal (acc * 10 + (c.toNat - '0'.toNat)) cs) l2
    exact ih l2 _

theorem digitsVal_singleton (a : Nat) (c : Char) :
    digitsVal a [c] = a * 10 + (c.toNat - '0'.toNat) := rfl

theorem digitsVal_natToDigits : ∀ (n acc : Nat),
    digitsVal acc (natToDigits n) = acc * 10 ^ (natToDigits n).length + n := by
  intro n
  induction n using Nat.strong_induction_on with
  | _ n ih =>
    intro acc
    by_cases h : n < 10
    · rw [natToDigits_lt h, digitsVal_singleton, digitChar_toNat h]
      rw [show ('0'.toNat) = 48 from rfl]
      simp only [List.length_singleton, pow_one]
      omega
    · rw [natToDigits_ge (by omega), digitsVal_append, ih (n / 10) (by omega),
        digitsVal_singleton, digitChar_toNat (Nat.mod_lt n (by omega))]
      rw [show ('0'.toNat) = 48 from rfl]
      simp only [List.length_append, List.length_singleton]
      have key : n / 10 * 10 + n % 10 = n := by omega
      have he : 48 + n % 10 - 48 = n % 10 := by omega
      rw [he, pow_succ]
      calc (acc * 10 ^ (natToDigits (n / 10)).length + n / 10) * 10 + n % 10
          = acc * (10 ^ (natToDigits (n / 10)).length * 10) + (n / 10 * 10 + n % 10) := by
            ring
        _ = acc * (10 ^ (natToDigits (n / 10)).length * 10) + n := by rw [key]

theorem parseNatNum_zero (rest : List Char) (h : numStop rest = true) :
    parseNatNum ('0' :: rest) = some (0, rest) := by
  unfold parseNatNum
  simp only
  simp [h]

theorem parseNatNum_pos {c : Char} (rest : List Char) (hz : c ≠ '0') (hd : c.isDigit = true) :
    parseNatNum (c :: rest) =
      (if numStop (parseDigits (c.toNat - '0'.toNat) rest).2 = true
        then some (parseDigits (c.toNat - '0'.toNat) rest) else none) := by
  unfold parseNatNum
  simp only
  rw [if_neg hz, if_pos hd]

theorem parseNatNum_natToDigits : ∀ (n : Nat) (rest : List Char), numStop rest = true →
    parseNatNum (natToDigits n ++ rest) = some (n, rest) := by
  intro n rest hstop
  by_cases h0 : n = 0
  · subst h0
    rw [natToDigits_lt (by omega)]
    exact parseNatNum_zero rest hstop
  · obtain ⟨c, t, hd⟩ := List.exists_cons_of_ne_nil (natToDigits_ne_nil n)
    have hcd : c.isDigit = true :=
      natToDigits_all_digit n c (by rw [hd]; exact List.mem_cons_self _ _)
    have hcz : c ≠ '0' := natToDigits_head_ne_zero n (by omega) c t hd
    rw [hd, List.cons_append, parseNatNum_pos _ hcz hcd]
    rw [parseDigits_spec t _ rest
      (fun x hx => natToDigits_all_digit n x (by rw [hd]; exact List.mem_cons_of_mem _ hx))
      (numStop_headNotDigit hstop)]
    have hval : digitsVal (c.toNat - '0'.toNat) t = n := by
      have h1 : digitsVal 0 (natToDigits n) = n := by
        rw [digitsVal_natToDigits]
        simp
      rw [hd] at h1
      show digitsVal (c.toNat - '0'.toNat) t = n
      have h2 : digitsVal 0 (c :: t) = digitsVal (0 * 10 + (c.toNat - '0'.toNat)) t := rfl
      rw [h2] at h1
      simpa using h1
    simp only [hval]
    rw [if_pos hstop]

theorem digit_ne_minus {c : Char} (h : c.isDigit = true) : c ≠ '-' := by
  intro he
  subst he
  exact absurd h (by decide)

theorem parseNumberVal_minus (l : List Char) :
    parseNumberVal ('-' :: l) =
      (parseNatNum l).map (fun p => (JsonValue.num (-(p.1 : Int)), p.2)) := by
  unfold parseNumberVal
  simp only
  simp

theorem parseNumberVal_not_minus {c : Char} (h : c ≠ '-') (l : List Char) :
    parseNumberVal (c :: l) =
      (parseNatNum (c :: l)).map (fun p => (JsonValue.num ((p.1 : Int)), p.2)) := by
  unfold parseNumberVal
  simp only
  rw [if_neg h]

theorem parseNumberVal_intRepr : ∀ (n : Int) (rest : List Char), numStop rest = true →
    parseNumberVal (intRepr n ++ rest) = some (.num n, rest) := by
  intro n rest hstop
  by_cases hn : n < 0
  · rw [show intRepr n = '-' :: natToDigits n.natAbs from by rw [intRepr, if_pos hn]]
    rw [List.cons_append, parseNumberVal_minus, parseNatNum_natToDigits _ _ hstop]
    simp only [Option.map_some']
    have hv : -((n.natAbs : Int)) = n := by omega
    rw [hv]
  · obtain ⟨c, t, hd⟩ := List.exists_cons_of_ne_nil (natToDigits_ne_nil n.toNat)
    have hcd : c.isDigit = true :=
      natToDigits_all_digit n.toNat c (by rw [hd]; exact List.mem_cons_self _ _)
    rw [show intRepr n = natToDigits n.toNat from by rw [intRepr, if_neg hn]]
    rw [hd, List.cons_append, parseNumberVal_not_minus (digit_ne_minus hcd)]
    rw [← List.cons_append, ← hd, parseNatNum_natToDigits _ _ hstop]
    simp only [Option.map_some']
    have hv : ((n.toNat : Int)) = n := by omega
    rw [hv]

/-! ### The string-literal round trip -/

theorem hexVal_hexDigitOfNat : ∀ d : Nat, d < 16 → hexVal (hexDigitOfNat d) = some d := by
  intro d h
  interval_cases d <;> decide

theorem matchLit_self : ∀ (l rest : List Char), matchLit l (l ++ rest) = some rest := by
  intro l
  induction l with
  | nil => intro rest; rfl
  | cons c cs ih =>
    intro rest
    rw [List.cons_append]
    simp only [matchLit, if_true]
    exact ih rest

theorem psb_quote (rest : List Char) : parseStringBody ('"' :: rest) = some ([], rest) := by
  conv_lhs => unfold parseStringBody
  simp

theorem psb_escape_simple {e ch : Char} (he : e ≠ 'u') (h : simpleUnescape e = some ch)
    (l : List Char) : parseStringBody ('\\' :: e :: l) =
      (parseStringBody l).map (fun p => (ch :: p.1, p.2)) := by
  conv_lhs => unfold parseStringBody
  simp only [if_true]
  rw [if_neg he, h, if_neg (show ¬ (('\\' : Char) = '"') from by decide)]

theorem psb_unicode {h1 h2 h3 h4 : Char} {d1 d2 d3 d4 : Nat}
    (hv1 : hexVal h1 = some d1) (hv2 : hexVal h2 = some d2)
    (hv3 : hexVal h3 = some d3) (hv4 : hexVal h4 = some d4)
    (hvalid : (((d1 * 16 + d2) * 16 + d3) * 16 + d4).isValidChar) (l : List Char) :
    parseStringBody ('\\' :: 'u' :: h1 :: h2 :: h3 :: h4 :: l) =
      (parseStringBody l).map
        (fun p => (Char.ofNat (((d1 * 16 + d2) * 16 + d3) * 16 + d4) :: p.1, p.2)) := by
  conv_lhs => unfold parseStringBody
  simp only [if_true]
  rw [hv1, hv2, hv3, hv4]
  simp only
  rw [dif_pos hvalid, if_neg (show ¬ (('\\' : Char) = '"') from by decide)]

theorem psb_plain {c : Char} (hq : c ≠ '"') (hb : c ≠ '\\') (hc : ¬ (c.toNat < 32))
    (l : List Char) : parseStringBody (c :: l) =
      (parseStringBody l).map (fun p => (c :: p.1, p.2)) := by
  conv_lhs => unfold parseStringBody
  simp only
  rw [if_neg hq, if_neg hb, if_neg hc]

theorem parseStringBody_escape : ∀ (l rest : List Char),
    parseStringBody (escapeList l ++ '"' :: rest) = some (l, rest) := by
  intro l
  induction l with
  | nil =>
    intro rest
    exact psb_quote rest
  | cons c cs ih =>
    intro rest
    show parseStringBody ((escapeChar c ++ escapeList cs) ++ '"' :: rest) = some (c :: cs, rest)
    rw [List.append_assoc]
    by_cases h1 : c = '"'
    · subst h1
      rw [show escapeChar '"' = ['\\', '"'] from rfl, List.cons_append, List.cons_append,
        List.nil_append, psb_escape_simple (by decide) (by decide : simpleUnescape '"' = some '"'),
        ih rest]
      rfl
    · by_cases h2 : c = '\\'
      · subst h2
        rw [show escapeChar '\\' = ['\\', '\\'] from rfl, List.cons_append, List.cons_append,
          List.nil_append,
          psb_escape_simple (by decide) (by decide : simpleUnescape '\\' = some '\\'),
          ih rest]
        rfl
      · by_cases h3 : c = '\n'
        · subst h3
          rw [show escapeChar '\n' = ['\\', 'n'] from rfl, List.cons_append, List.cons_append,
            List.nil_append,
            psb_escape_simple (by decide) (by decide : simpleUnescape 'n' = some '\n'),
            ih rest]
          rfl
        · by_cases h4 : c = '\r'
          · subst h4
            rw [show escapeChar '\r' = ['\\', 'r'] from rfl, List.cons_append, List.cons_append,
              List.nil_append,
              psb_escape_simple (by decide) (by decide : simpleUnescape 'r' = some '\r'),
              ih rest]
            rfl
          · by_cases h5 : c = '\t'
            · subst h5
              rw [show escapeChar '\t' = ['\\', 't'] from rfl, List.cons_append,
                List.cons_append, List.nil_append,
                psb_escape_simple (by decide) (by decide : simpleUnescape 't' = some '\t'),
                ih rest]
              rfl
            · by_cases h6 : c.toNat = 8
              · have hch : escapeChar c = ['\\', 'b'] := by
                  unfold escapeChar
                  rw [if_neg h1, if_neg h2, if_neg h3, if_neg h4, if_neg h5, if_pos h6]
                have hco : Char.ofNat 8 = c := by rw [← h6, Char.ofNat_toNat]
                rw [hch, List.cons_append, List.cons_append, List.nil_append,
                  psb_escape_simple (by decide)
                    (by decide : simpleUnescape 'b' = some (Char.ofNat 8)),
                  ih rest, hco]
                rfl
              · by_cases h7 : c.toNat = 12
                · have hch : escapeChar c = ['\\', 'f'] := by
                    unfold escapeChar
                    rw [if_neg h1, if_neg h2, if_neg h3, if_neg h4, if_neg h5, if_neg h6,
                      if_pos h7]
                  have hco : Char.ofNat 12 = c := by rw [← h7, Char.ofNat_toNat]
                  rw [hch, List.cons_append, List.cons_append, List.nil_append,
                    psb_escape_simple (by decide)
                      (by decide : simpleUnescape 'f' = some (Char.ofNat 12)),
                    ih rest, hco]
                  rfl
                · by_cases h8 : c.toNat < 32
                  · have hch : escapeChar c =
                        ['\\', 'u', '0', '0', hexDigitOfNat (c.toNat / 16),
                          hexDigitOfNat (c.toNat % 16)] := by
                      unfold escapeChar
                      rw [if_neg h1, if_neg h2, if_neg h3, if_neg h4, if_neg h5, if_neg h6,
                        if_neg h7, if_pos h8]
                    have hval : ((0 * 16 + 0) * 16 + c.toNat / 16) * 16 + c.toNat % 16 =
                        c.toNat := by omega
                    have hvalid : (((0 * 16 + 0) * 16 + c.toNat / 16) * 16 +
                        c.toNat % 16).isValidChar := by
                      rw [hval]
                      exact Or.inl (by omega)
                    have hco : Char.ofNat (((0 * 16 + 0) * 16 + c.toNat / 16) * 16 +
                        c.toNat % 16) = c := by rw [hval, Char.ofNat_toNat]
                    rw [hch]
                    simp only [List.cons_append, List.nil_append]
                    rw [psb_unicode (by decide : hexVal '0' = some 0)
                      (by decide : hexVal '0' = some 0)
                      (hexVal_hexDigitOfNat (c.toNat / 16) (by omega))
                      (hexVal_hexDigitOfNat (c.toNat % 16) (by omega))
                      hvalid, ih rest, hco]
                    rfl
                  · have hch : escapeChar c = [c] := by
                      unfold escapeChar
                      rw [if_neg h1, if_neg h2, if_neg h3, if_neg h4, if_neg h5, if_neg h6,
                        if_neg h7, if_neg h8]
                    rw [hch, List.cons_append, List.nil_append,
                      psb_plain h1 h2 h8, ih rest]
                    rfl

/-! ### Dispatch lemmas for the value reader -/

theorem pv_ws (f : Nat) {cs1 cs2 : List Char} (h : skipWs cs1 = skipWs cs2) :
    parseValueF f cs1 = parseValueF f cs2 := by
  cases f with
  | zero => rfl
  | succ f =>
    unfold parseValueF
    rw [h]

theorem pv_null (f : Nat) (l : List Char) :
    parseValueF (f + 1) ('n' :: l) =
      (matchLit ['u', 'l', 'l'] l).map (fun r => (JsonValue.null, r)) := by
  conv_lhs => unfold parseValueF
  rw [skipWs_cons_of_not_ws (by decide)]
  simp only [if_true]

theorem pv_true (f : Nat) (l : List Char) :
    parseValueF (f + 1) ('t' :: l) =
      (matchLit ['r', 'u', 'e'] l).map (fun r => (JsonValue.bool true, r)) := by
  conv_lhs => unfold parseValueF
  rw [skipWs_cons_of_not_ws (by decide)]
  simp only [if_true]
  rw [if_neg (by decide : ¬ (('t' : Char) = 'n'))]

theorem pv_false (f : Nat) (l : List Char) :
    parseValueF (f + 1) ('f' :: l) =
      (matchLit ['a', 'l', 's', 'e'] l).map (fun r => (JsonValue.bool false, r)) := by
  conv_lhs => unfold parseValueF
  rw [skipWs_cons_of_not_ws (by decide)]
  simp only [if_true]
  rw [if_neg (by decide : ¬ (('f' : Char) = 'n')), if_neg (by decide : ¬ (('f' : Char) = 't'))]

theorem pv_quote (f : Nat) (l : List Char) :
    parseValueF (f + 1) ('"' :: l) =
      (parseStringBody l).map (fun p => (JsonValue.str (String.mk p.1), p.2)) := by
  conv_lhs => unfold parseValueF
  rw [skipWs_cons_of_not_ws (by decide)]
  simp only [if_true]
  rw [if_neg (by decide : ¬ (('"' : Char) = 'n')), if_neg (by decide : ¬ (('"' : Char) = 't')),
    if_neg (by decide : ¬ (('"' : Char) = 'f'))]

theorem pv_num {c : Char} (hc : c = '-' ∨ c.isDigit = true) (f : Nat) (l : List Char) :
    parseValueF (f + 1) (c :: l) = parseNumberVal (c :: l) := by
  have hws : isJsonWs c = false := by
    rcases hc with rfl | hc
    · decide
    · by_contra hw
      simp only [Bool.not_eq_false] at hw
      simp only [isJsonWs, Bool.or_eq_true, decide_eq_true_eq] at hw
      rcases hw with ((rfl | rfl) | rfl) | rfl <;> exact absurd hc (by decide)
  have hne : c ≠ 'n' ∧ c ≠ 't' ∧ c ≠ 'f' ∧ c ≠ '"' ∧ c ≠ '[' ∧ c ≠ '{' := by
    rcases hc with rfl | hc
    · refine ⟨by decide, by decide, by decide, by decide, by decide, by decide⟩
    · refine ⟨?_, ?_, ?_, ?_, ?_, ?_⟩ <;>
        (intro he; subst he; exact absurd hc (by decide))
  obtain ⟨e1, e2, e3, e4, e5, e6⟩ := hne
  conv_lhs => unfold parseValueF
  rw [skipWs_cons_of_not_ws hws]
  simp only
  rw [if_neg e1, if_neg e2, if_neg e3, if_neg e4, if_neg e5, if_neg e6]

theorem pv_arr_nil (f : Nat) {l r2 : List Char} (h : skipWs l = ']' :: r2) :
    parseValueF (f + 1) ('[' :: l) = some (.arr [], r2) := by
  conv_lhs => unfold parseValueF
  rw [skipWs_cons_of_not_ws (by decide)]
  simp only [if_true]
  rw [if_neg (by decide : ¬ (('[' : Char) = 'n')), if_neg (by decide : ¬ (('[' : Char) = 't')),
    if_neg (by decide : ¬ (('[' : Char) = 'f')), if_neg (by decide : ¬ (('[' : Char) = '"')),
    h]
  simp only [if_true]

theorem pv_arr_cons (f : Nat) {l : List Char} {c2 : Char} {r2 : List Char}
    (h : skipWs l = c2 :: r2) (hne : c2 ≠ ']') :
    parseValueF (f + 1) ('[' :: l) =
      (match parseValueF f (c2 :: r2) with
      | some (v, r3) => (parseArrayTailF f r3).map (fun p => (JsonValue.arr (v :: p.1), p.2))
      | none => none) := by
  conv_lhs => unfold parseValueF
  rw [skipWs_cons_of_not_ws (by decide)]
  simp only [if_true]
  rw [if_neg (by decide : ¬ (('[' : Char) = 'n')), if_neg (by decide : ¬ (('[' : Char) = 't')),
    if_neg (by decide : ¬ (('[' : Char) = 'f')), if_neg (by decide : ¬ (('[' : Char) = '"')),
    h]
  simp only
  rw [if_neg hne]

theorem pv_obj_nil (f : Nat) {l r2 : List Char} (h : skipWs l = '}' :: r2) :
    parseValueF (f + 1) ('{' :: l) = some (.obj [], r2) := by
  conv_lhs => unfold parseValueF
  rw [skipWs_cons_of_not_ws (by decide)]
  simp only [if_true]
  rw [if_neg (by decide : ¬ (('{' : Char) = 'n')), if_neg (by decide : ¬ (('{' : Char) = 't')),
    if_neg (by decide : ¬ (('{' : Char) = 'f')), if_neg (by decide : ¬ (('{' : Char) = '"')),
    if_neg (by decide : ¬ (('{' : Char) = '[')), h]
  simp only [if_true]

theorem pv_obj_cons (f : Nat) {l r2 : List Char} (h : skipWs l = '"' :: r2) :
    parseValueF (f + 1) ('{' :: l) =
      (match parseStringBody r2 with
      | some (k, r3) =>
        (match skipWs r3 with
        | [] => none
        | c3 :: r4 =>
          if c3 = ':' then
            match parseValueF f r4 with
            | some (v, r5) =>
              (parseObjectTailF f r5).map
                (fun p => (JsonValue.obj (addEntryJS (String.mk k) v p.1), p.2))
            | none => none
          else none)
      | none => none) := by
  conv_lhs => unfold parseValueF
  rw [skipWs_cons_of_not_ws (by decide)]
  simp only [if_true]
  rw [if_neg (by decide : ¬ (('{' : Char) = 'n')), if_neg (by decide : ¬ (('{' : Char) = 't')),
    if_neg (by decide : ¬ (('{' : Char) = 'f')), if_neg (by decide : ¬ (('{' : Char) = '"')),
    if_neg (by decide : ¬ (('{' : Char) = '[')), h]
  simp only
  rw [if_neg (by decide : ¬ (('"' : Char) = '}'))]
  simp only [if_true]

theorem pat_close (f : Nat) {cs r2 : List Char} (h : skipWs cs = ']' :: r2) :
    parseArrayTailF (f + 1) cs = some ([], r2) := by
  conv_lhs => unfold parseArrayTailF
  rw [h]
  simp only [if_true]

theorem pat_comma (f : Nat) (l : List Char) :
    parseArrayTailF (f + 1) (',' :: l) =
      (match parseValueF f l with
      | some (v, r2) => (parseArrayTailF f r2).map (fun p => (v :: p.1, p.2))
      | none => none) := by
  conv_lhs => unfold parseArrayTailF
  rw [skipWs_cons_of_not_ws (by decide)]
  simp only
  rw [if_neg (by decide : ¬ ((',' : Char) = ']'))]
  simp only [if_true]

theorem pot_close (f : Nat) {cs r2 : List Char} (h : skipWs cs = '}' :: r2) :
    parseObjectTailF (f + 1) cs = some ([], r2) := by
  conv_lhs => unfold parseObjectTailF
  rw [h]
  simp only [if_true]

theorem pot_comma (f : Nat) (l : List Char) {r2 : List Char}
    (h2 : skipWs l = '"' :: r2) :
    parseObjectTailF (f + 1) (',' :: l) =
      (match parseStringBody r2 with
      | some (k, r3) =>
        (match skipWs r3 with
        | [] => none
        | c3 :: r4 =>
          if c3 = ':' then
            match parseValueF f r4 with
            | some (v, r5) =>
              (parseObjectTailF f r5).map (fun p => (addEntryJS (String.mk k) v p.1, p.2))
            | none => none
          else none)
      | none => none) := by
  conv_lhs => unfold parseObjectTailF
  rw [skipWs_cons_of_not_ws (by decide)]
  simp only
  rw [if_neg (by decide : ¬ ((',' : Char) = '}'))]
  simp only [if_true]
  rw [h2]
  simp only [if_true]

/-! ### Heads, sizes and invariants feeding the round trip -/

theorem intRepr_head : ∀ n : Int, ∃ c t, intRepr n = c :: t ∧
    (c = '-' ∨ c.isDigit = true) := by
  intro n
  by_cases hn : n < 0
  · refine ⟨'-', natToDigits n.natAbs, ?_, Or.inl rfl⟩
    rw [intRepr, if_pos hn]
  · obtain ⟨c, t, hd⟩ := List.exists_cons_of_ne_nil (natToDigits_ne_nil n.toNat)
    refine ⟨c, t, ?_,
      Or.inr (natToDigits_all_digit _ c (by rw [hd]; exact List.mem_cons_self _ _))⟩
    rw [intRepr, if_neg hn, hd]

theorem numHead_not_ws {c : Char} (hc : c = '-' ∨ c.isDigit = true) : isJsonWs c = false := by
  rcases hc with rfl | hc
  · decide
  · by_contra hw
    simp only [Bool.not_eq_false] at hw
    simp only [isJsonWs, Bool.or_eq_true, decide_eq_true_eq] at hw
    rcases hw with ((rfl | rfl) | rfl) | rfl <;> exact absurd hc (by decide)

theorem numHead_ne_rbracket {c : Char} (hc : c = '-' ∨ c.isDigit = true) : c ≠ ']' := by
  rcases hc with rfl | hc
  · decide
  · intro he
    subst he
    exact absurd hc (by decide)

theorem stringifyAt_head : ∀ (v : JsonValue) (d : Nat), ∃ c t, stringifyAt d v = c :: t ∧
    isJsonWs c = false ∧ c ≠ ']' := by
  intro v d
  cases v with
  | null => exact ⟨'n', _, rfl, by decide, by decide⟩
  | bool b =>
    cases b with
    | true => exact ⟨'t', _, rfl, by decide, by decide⟩
    | false => exact ⟨'f', _, rfl, by decide, by decide⟩
  | num n =>
    obtain ⟨c, t, hd, hc⟩ := intRepr_head n
    exact ⟨c, t, by rw [show stringifyAt d (.num n) = intRepr n from rfl, hd],
      numHead_not_ws hc, numHead_ne_rbracket hc⟩
  | str s => exact ⟨'"', _, rfl, by decide, by decide⟩
  | arr xs =>
    cases xs with
    | nil => exact ⟨'[', _, rfl, by decide, by decide⟩
    | cons x xs => exact ⟨'[', _, rfl, by decide, by decide⟩
  | obj kvs =>
    cases kvs with
    | nil => exact ⟨'{', _, rfl, by decide, by decide⟩
    | cons kv kvs =>
      obtain ⟨k, v⟩ := kv
      exact ⟨'{', _, rfl, by decide, by decide⟩

theorem numStop_arrTail (d : Nat) (xs : List JsonValue) (l : List Char) :
    numStop (arrTail d xs ++ '\n' :: l) = true := by
  cases xs with
  | nil => rfl
  | cons x xs => rfl

theorem numStop_objTail (d : Nat) (kvs : List (String × JsonValue)) (l : List Char) :
    numStop (objTail d kvs ++ '\n' :: l) = true := by
  cases kvs with
  | nil => rfl
  | cons kv kvs =>
    obtain ⟨k, v⟩ := kv
    rfl

theorem WF_arr_inversion {x : JsonValue} {xs : List JsonValue} (h : WF (.arr (x :: xs))) :
    WF x ∧ ∀ y ∈ xs, WF y := by
  cases h with
  | arr _ hall =>
    exact ⟨hall x (List.mem_cons_self _ _), fun y hy => hall y (List.mem_cons_of_mem _ hy)⟩

theorem WF_obj_inversion {k : String} {v : JsonValue} {kvs : List (String × JsonValue)}
    (h : WF (.obj ((k, v) :: kvs))) :
    WF v ∧ (∀ kv ∈ kvs, WF kv.2) ∧ (kvs.map Prod.fst).Nodup ∧ k ∉ kvs.map Prod.fst := by
  cases h with
  | obj _ hall hnd =>
    simp only [List.map_cons, List.nodup_cons] at hnd
    exact ⟨hall (k, v) (List.mem_cons_self _ _),
      fun kv hkv => hall kv (List.mem_cons_of_mem _ hkv), hnd.2, hnd.1⟩

theorem lookupKey_eq_none {k : String} : ∀ {kvs : List (String × JsonValue)},
    k ∉ kvs.map Prod.fst → lookupKey k kvs = none := by
  intro kvs
  induction kvs with
  | nil => intro h; rfl
  | cons kv rest ih =>
    obtain ⟨k0, v0⟩ := kv
    intro h
    simp only [List.map_cons, List.mem_cons] at h
    push_neg at h
    simp only [lookupKey]
    rw [if_neg (fun he => h.1 he.symm), ih h.2]

theorem addEntryJS_fresh {k : String} {v : JsonValue} {kvs : List (String × JsonValue)}
    (h : k ∉ kvs.map Prod.fst) : addEntryJS k v kvs = (k, v) :: kvs := by
  unfold addEntryJS
  rw [lookupKey_eq_none h]

theorem jsizeList_pos : ∀ xs : List JsonValue, 1 ≤ jsizeList xs := by
  intro xs
  cases xs with
  | nil => simp [jsizeList]
  | cons x xs => simp [jsizeList]; omega

theorem jsizeEntries_pos : ∀ kvs : List (String × JsonValue), 1 ≤ jsizeEntries kvs := by
  intro kvs
  cases kvs with
  | nil => simp [jsizeEntries]
  | cons kv rest =>
    obtain ⟨k, v⟩ := kv
    simp [jsizeEntries]
    omega

/-! ### The parse/serialize round trip -/

theorem stringify_parse_round : ∀ f : Nat,
    (∀ (v : JsonValue) (d : Nat) (rest : List Char), jsize v ≤ f → WF v →
      numStop rest = true →
      parseValueF f (stringifyAt d v ++ rest) = some (v, rest)) ∧
    (∀ (xs : List JsonValue) (d e : Nat) (rest : List Char), jsizeList xs ≤ f →
      (∀ x ∈ xs, WF x) →
      parseArrayTailF f (arrTail d xs ++ '\n' :: (pad e ++ ']' :: rest)) = some (xs, rest)) ∧
    (∀ (kvs : List (String × JsonValue)) (d e : Nat) (rest : List Char),
      jsizeEntries kvs ≤ f → (∀ kv ∈ kvs, WF kv.2) → (kvs.map Prod.fst).Nodup →
      parseObjectTailF f (objTail d kvs ++ '\n' :: (pad e ++ '}' :: rest)) =
        some (kvs, rest)) := by
  intro f
  induction f with
  | zero =>
    refine ⟨?_, ?_, ?_⟩
    · intro v d rest hf _ _
      exact absurd hf (by have := jsize_pos v; omega)
    · intro xs d e rest hf _
      exact absurd hf (by have := jsizeList_pos xs; omega)
    · intro kvs d e rest hf _ _
      exact absurd hf (by have := jsizeEntries_pos kvs; omega)
  | succ f ih =>
    obtain ⟨ihv, iha, iho⟩ := ih
    refine ⟨?_, ?_, ?_⟩
    · intro v d rest hf hwf hstop
      cases v with
      | null =>
        rw [show stringifyAt d JsonValue.null = ['n', 'u', 'l', 'l'] from rfl,
          List.cons_append, pv_null f, matchLit_self]
        rfl
      | bool b =>
        cases b with
        | true =>
          rw [show stringifyAt d (JsonValue.bool true) = ['t', 'r', 'u', 'e'] from rfl,
            List.cons_append, pv_true f, matchLit_self]
          rfl
        | false =>
          rw [show stringifyAt d (JsonValue.bool false) = ['f', 'a', 'l', 's', 'e'] from rfl,
            List.cons_append, pv_false f, matchLit_self]
          rfl
      | num n =>
        rw [show stringifyAt d (JsonValue.num n) = intRepr n from rfl]
        obtain ⟨c, t, hd, hc⟩ := intRepr_head n
        rw [hd, List.cons_append, pv_num hc f, ← List.cons_append, ← hd,
          parseNumberVal_intRepr n rest hstop]
      | str s =>
        rw [show stringifyAt d (JsonValue.str s) = '"' :: (escapeList s.data ++ ['"'])
            from rfl,
          List.cons_append, pv_quote f, List.append_assoc, List.singleton_append,
          parseStringBody_escape]
        rfl
      | arr xs =>
        cases xs with
        | nil =>
          rw [show stringifyAt d (JsonValue.arr []) = ['[', ']'] from rfl, List.cons_append]
          exact pv_arr_nil f
            (by rw [List.singleton_append, skipWs_cons_of_not_ws (by decide)])
        | cons x xs2 =>
          have hsz : jsize x ≤ f ∧ jsizeList xs2 ≤ f := by
            simp only [jsize, jsizeList] at hf
            omega
          obtain ⟨hwx, hwxs⟩ := WF_arr_inversion hwf
          simp only [stringifyAt, List.cons_append, List.append_assoc,
            List.singleton_append, List.nil_append]
          obtain ⟨c2, t2, hd2, hws2, hnb2⟩ := stringifyAt_head x (d + 1)
          have hskip : skipWs ('\n' :: (pad (d + 1) ++ (stringifyAt (d + 1) x ++
              (arrTail (d + 1) xs2 ++ '\n' :: (pad d ++ ']' :: rest))))) =
              c2 :: (t2 ++ (arrTail (d + 1) xs2 ++ '\n' :: (pad d ++ ']' :: rest))) := by
            rw [skipWs_cons_of_ws (by decide), skipWs_pad, hd2, List.cons_append,
              skipWs_cons_of_not_ws hws2]
          rw [pv_arr_cons f hskip hnb2]
          have hback : c2 :: (t2 ++ (arrTail (d + 1) xs2 ++ '\n' :: (pad d ++ ']' :: rest))) =
              stringifyAt (d + 1) x ++ (arrTail (d + 1) xs2 ++ '\n' :: (pad d ++ ']' :: rest)) := by
            rw [hd2, List.cons_append]
          rw [hback, ihv x (d + 1) _ hsz.1 hwx (numStop_arrTail _ _ _)]
          simp only
          rw [iha xs2 (d + 1) d rest hsz.2 hwxs]
          rfl
      | obj kvs =>
        cases kvs with
        | nil =>
          rw [show stringifyAt d (JsonValue.obj []) = ['{', '}'] from rfl, List.cons_append]
          exact pv_obj_nil f
            (by rw [List.singleton_append, skipWs_cons_of_not_ws (by decide)])
        | cons kv kvs2 =>
          obtain ⟨k, v⟩ := kv
          have hsz : jsize v ≤ f ∧ jsizeEntries kvs2 ≤ f := by
            simp only [jsize, jsizeEntries] at hf
            omega
          obtain ⟨hwv, hall, hnd, hnm⟩ := WF_obj_inversion hwf
          simp only [stringifyAt, List.cons_append, List.append_assoc,
            List.singleton_append, List.nil_append]
          have hskip : skipWs ('\n' :: (pad (d + 1) ++ ('"' :: (escapeList k.data ++
              '"' :: ':' :: ' ' :: (stringifyAt (d + 1) v ++ (objTail (d + 1) kvs2 ++
                '\n' :: (pad d ++ '}' :: rest))))))) =
              '"' :: (escapeList k.data ++ '"' :: ':' :: ' ' :: (stringifyAt (d + 1) v ++
                (objTail (d + 1) kvs2 ++ '\n' :: (pad d ++ '}' :: rest)))) := by
            rw [skipWs_cons_of_ws (by decide), skipWs_pad,
              skipWs_cons_of_not_ws (by decide)]
          rw [pv_obj_cons f hskip, parseStringBody_escape]
          simp only
          rw [skipWs_cons_of_not_ws (by decide)]
          simp only [if_true]
          rw [pv_ws f (skipWs_cons_of_ws (by decide) _),
            ihv v (d + 1) _ hsz.1 hwv (numStop_objTail _ _ _)]
          simp only
          rw [iho kvs2 (d + 1) d rest hsz.2 hall hnd]
          simp only [Option.map_some']
          rw [show String.mk k.data = k from rfl, addEntryJS_fresh hnm]
    · intro xs d e rest hf hall
      cases xs with
      | nil =>
        rw [show arrTail d ([] : List JsonValue) = [] from rfl, List.nil_append]
        exact pat_close f
          (by rw [skipWs_cons_of_ws (by decide), skipWs_pad,
            skipWs_cons_of_not_ws (by decide)])
      | cons x xs2 =>
        have hsz : jsize x ≤ f ∧ jsizeList xs2 ≤ f := by
          simp only [jsizeList] at hf
          omega
        have hwx : WF x := hall x (List.mem_cons_self _ _)
        have hwxs : ∀ y ∈ xs2, WF y := fun y hy => hall y (List.mem_cons_of_mem _ hy)
        simp only [arrTail, List.cons_append, List.append_assoc]
        rw [pat_comma f]
        rw [pv_ws f (by
          rw [skipWs_cons_of_ws (by decide), skipWs_pad] :
            skipWs ('\n' :: (pad d ++ (stringifyAt d x ++ (arrTail d xs2 ++
              '\n' :: (pad e ++ ']' :: rest))))) =
            skipWs (stringifyAt d x ++ (arrTail d xs2 ++ '\n' :: (pad e ++ ']' :: rest))))]
        rw [ihv x d _ hsz.1 hwx (numStop_arrTail _ _ _)]
        simp only
        rw [iha xs2 d e rest hsz.2 hwxs]
        rfl
    · intro kvs d e rest hf hall hnd
      cases kvs with
      | nil =>
        rw [show objTail d ([] : List (String × JsonValue)) = [] from rfl, List.nil_append]
        exact pot_close f
          (by rw [skipWs_cons_of_ws (by decide), skipWs_pad,
            skipWs_cons_of_not_ws (by decide)])
      | cons kv kvs2 =>
        obtain ⟨k, v⟩ := kv
        have hsz : jsize v ≤ f ∧ jsizeEntries kvs2 ≤ f := by
          simp only [jsizeEntries] at hf
          omega
        have hwv : WF v := hall (k, v) (List.mem_cons_self _ _)
        have hall2 : ∀ kv ∈ kvs2, WF kv.2 := fun kv hkv => hall kv (List.mem_cons_of_mem _ hkv)
        have hnd2 : (kvs2.map Prod.fst).Nodup := by
          simp only [List.map_cons, List.nodup_cons] at hnd
          exact hnd.2
        have hnm : k ∉ kvs2.map Prod.fst := by
          simp only [List.map_cons, List.nodup_cons] at hnd
          exact hnd.1
        simp only [objTail, List.cons_append, List.append_assoc]
        rw [pot_comma f _ (by
          rw [skipWs_cons_of_ws (by decide), skipWs_pad,
            skipWs_cons_of_not_ws (by decide)])]
        rw [parseStringBody_escape]
        simp only
        rw [skipWs_cons_of_not_ws (by decide)]
        simp only [if_true]
        rw [pv_ws f (skipWs_cons_of_ws (by decide) _),
          ihv v d _ hsz.1 hwv (numStop_objTail _ _ _)]
        simp only
        rw [iho kvs2 d e rest hsz.2 hall2 hnd2]
        simp only [Option.map_some']
        rw [show String.mk k.data = k from rfl, addEntryJS_fresh hnm]

/-! ### Soundness: every parsed value satisfies the key-uniqueness invariant -/

theorem removeKey_sublist (k : String) :
    ∀ kvs : List (String × JsonValue), (removeKey k kvs).Sublist kvs := by
  intro kvs
  induction kvs with
  | nil => exact List.Sublist.refl _
  | cons kv rest ih =>
    obtain ⟨k0, v0⟩ := kv
    simp only [removeKey]
    by_cases he : k0 = k
    · rw [if_pos he]
      exact List.sublist_cons_self _ _
    · rw [if_neg he]
      exact List.Sublist.cons₂ _ ih

theorem not_mem_removeKey {k : String} :
    ∀ kvs : List (String × JsonValue), (kvs.map Prod.fst).Nodup →
    k ∉ (removeKey k kvs).map Prod.fst := by
  intro kvs
  induction kvs with
  | nil => intro _ h; exact absurd h (by simp [removeKey])
  | cons kv rest ih =>
    obtain ⟨k0, v0⟩ := kv
    intro hnd h
    simp only [List.map_cons, List.nodup_cons] at hnd
    simp only [removeKey] at h
    by_cases he : k0 = k
    · rw [if_pos he] at h
      subst he
      exact hnd.1 h
    · rw [if_neg he] at h
      simp only [List.map_cons, List.mem_cons] at h
      rcases h with rfl | h
      · exact he rfl
      · exact ih hnd.2 h

theorem lookupKey_none_not_mem {k : String} :
    ∀ kvs : List (String × JsonValue), lookupKey k kvs = none → k ∉ kvs.map Prod.fst := by
  intro kvs
  induction kvs with
  | nil => intro _ h; exact absurd h (by simp)
  | cons kv rest ih =>
    obtain ⟨k0, v0⟩ := kv
    intro hl h
    simp only [lookupKey] at hl
    by_cases he : k0 = k
    · rw [if_pos he] at hl
      exact Option.noConfusion hl
    · rw [if_neg he] at hl
      simp only [List.map_cons, List.mem_cons] at h
      rcases h with rfl | h
      · exact he rfl
      · exact ih hl h

theorem addEntryJS_WF {k : String} {v : JsonValue} {kvs : List (String × JsonValue)}
    (hv : WF v) (hall : ∀ kv ∈ kvs, WF kv.2) (hnd : (kvs.map Prod.fst).Nodup) :
    (∀ kv ∈ addEntryJS k v kvs, WF kv.2) ∧ ((addEntryJS k v kvs).map Prod.fst).Nodup := by
  unfold addEntryJS
  cases hl : lookupKey k kvs with
  | some v2 =>
    constructor
    · intro kv hkv
      rcases List.mem_cons.mp hkv with rfl | hkv
      · exact hall _ (lookupKey_mem _ hl)
      · exact hall kv ((removeKey_sublist k kvs).subset hkv)
    · simp only [List.map_cons, List.nodup_cons]
      exact ⟨not_mem_removeKey kvs hnd,
        hnd.sublist ((removeKey_sublist k kvs).map Prod.fst)⟩
  | none =>
    constructor
    · intro kv hkv
      rcases List.mem_cons.mp hkv with rfl | hkv
      · exact hv
      · exact hall kv hkv
    · simp only [List.map_cons, List.nodup_cons]
      exact ⟨lookupKey_none_not_mem kvs hl, hnd⟩

theorem parseNumberVal_shape {cs : List Char} {v : JsonValue} {r : List Char}
    (h : parseNumberVal cs = some (v, r)) : ∃ n : Int, v = .num n := by
  cases cs with
  | nil => exact absurd h (by simp [parseNumberVal])
  | cons c rest =>
    unfold parseNumberVal at h
    simp only at h
    by_cases hm : c = '-'
    · rw [if_pos hm] at h
      rcases Option.map_eq_some'.mp h with ⟨p, hp, heq⟩
      refine ⟨-(p.1 : Int), ?_⟩
      injection heq with h1 h2
      exact h1.symm
    · rw [if_neg hm] at h
      rcases Option.map_eq_some'.mp h with ⟨p, hp, heq⟩
      refine ⟨(p.1 : Int), ?_⟩
      injection heq with h1 h2
      exact h1.symm

theorem parse_sound : ∀ f : Nat,
    (∀ cs v r, parseValueF f cs = some (v, r) → WF v) ∧
    (∀ cs vs r, parseArrayTailF f cs = some (vs, r) → ∀ x ∈ vs, WF x) ∧
    (∀ cs kvs r, parseObjectTailF f cs = some (kvs, r) →
      (∀ kv ∈ kvs, WF kv.2) ∧ (kvs.map Prod.fst).Nodup) := by
  intro f
  induction f with
  | zero =>
    refine ⟨?_, ?_, ?_⟩
    · intro cs v r h; exact absurd h (by simp [parseValueF])
    · intro cs vs r h; exact absurd h (by simp [parseArrayTailF])
    · intro cs kvs r h; exact absurd h (by simp [parseObjectTailF])
  | succ f ih =>
    obtain ⟨ihv, iha, iho⟩ := ih
    refine ⟨?_, ?_, ?_⟩
    · intro cs v r h
      unfold parseValueF at h
      split at h
      · exact Option.noConfusion h
      · split at h
        · rcases Option.map_eq_some'.mp h with ⟨a, _, heq⟩
          injection heq with h1 h2
          exact h1 ▸ WF.null
        · split at h
          · rcases Option.map_eq_some'.mp h with ⟨a, _, heq⟩
            injection heq with h1 h2
            exact h1 ▸ WF.bool true
          · split at h
            · rcases Option.map_eq_some'.mp h with ⟨a, _, heq⟩
              injection heq with h1 h2
              exact h1 ▸ WF.bool false
            · split at h
              · rcases Option.map_eq_some'.mp h with ⟨a, _, heq⟩
                injection heq with h1 h2
                exact h1 ▸ WF.str _
              · split at h
                · -- array branch
                  split at h
                  · exact Option.noConfusion h
                  · split at h
                    · injection h with h1
                      injection h1 with ha hb
                      refine ha ▸ WF.arr [] ?_
                      intro x hx
                      exact absurd hx (List.not_mem_nil x)
                    · split at h
                      · rename_i v1 r3 heq
                        rcases Option.map_eq_some'.mp h with ⟨p, hp, heqq⟩
                        obtain ⟨vs, r4⟩ := p
                        injection heqq with ha hb
                        refine ha ▸ WF.arr _ ?_
                        intro x hx
                        rcases List.mem_cons.mp hx with rfl | hx
                        · exact ihv _ _ _ heq
                        · exact iha _ _ _ hp x hx
                      · exact Option.noConfusion h
                · split at h
                  · -- object branch
                    split at h
                    · exact Option.noConfusion h
                    · split at h
                      · injection h with h1
                        injection h1 with ha hb
                        refine ha ▸ WF.obj [] ?_ ?_
                        · intro kv hkv
                          exact absurd hkv (List.not_mem_nil kv)
                        · simp
                      · split at h
                        · split at h
                          · split at h
                            · exact Option.noConfusion h
                            · split at h
                              · split at h
                                · rename_i v1 r5 heq
                                  rcases Option.map_eq_some'.mp h with ⟨p, hp, heqq⟩
                                  obtain ⟨kvs2, r6⟩ := p
                                  injection heqq with ha hb
                                  obtain ⟨hall2, hnd2⟩ := iho _ _ _ hp
                                  obtain ⟨hw1, hw2⟩ :=
                                    addEntryJS_WF (ihv _ _ _ heq) hall2 hnd2
                                  exact ha ▸ WF.obj _ hw1 hw2
                                · exact Option.noConfusion h
                              · exact Option.noConfusion h
                          · exact Option.noConfusion h
                        · exact Option.noConfusion h
                  · -- number branch
                    obtain ⟨n, rfl⟩ := parseNumberVal_shape h
                    exact WF.num n
    · intro cs vs r h
      unfold parseArrayTailF at h
      split at h
      · exact Option.noConfusion h
      · split at h
        · injection h with h1
          injection h1 with ha hb
          intro x hx
          rw [← ha] at hx
          exact absurd hx (List.not_mem_nil x)
        · split at h
          · split at h
            · rename_i v1 r2 heq
              rcases Option.map_eq_some'.mp h with ⟨p, hp, heqq⟩
              obtain ⟨vs2, r3⟩ := p
              injection heqq with ha hb
              intro x hx
              rw [← ha] at hx
              rcases List.mem_cons.mp hx with rfl | hx
              · exact ihv _ _ _ heq
              · exact iha _ _ _ hp x hx
            · exact Option.noConfusion h
          · exact Option.noConfusion h
    · intro cs kvs r h
      unfold parseObjectTailF at h
      split at h
      · exact Option.noConfusion h
      · split at h
        · injection h with h1
          injection h1 with ha hb
          rw [← ha]
          exact ⟨fun kv hkv => absurd hkv (List.not_mem_nil kv), by simp⟩
        · split at h
          · split at h
            · exact Option.noConfusion h
            · split at h
              · split at h
                · split at h
                  · exact Option.noConfusion h
                  · split at h
                    · split at h
                      · rename_i v1 r5 heq
                        rcases Option.map_eq_some'.mp h with ⟨p, hp, heqq⟩
                        obtain ⟨kvs2, r6⟩ := p
                        injection heqq with ha hb
                        obtain ⟨hall2, hnd2⟩ := iho _ _ _ hp
                        rw [← ha]
                        exact addEntryJS_WF (ihv _ _ _ heq) hall2 hnd2
                      · exact Option.noConfusion h
                    · exact Option.noConfusion h
                · exact Option.noConfusion h
              · exact Option.noConfusion h
          · exact Option.noConfusion h

-- The serialized text is at least as long as the node count, so the
-- length-based fuel of JSON_parse suffices for the round trip.
mutual
theorem jsize_le_stringify : ∀ (v : JsonValue) (d : Nat),
    jsize v ≤ (stringifyAt d v).length + 1
  | .null, d => by simp [jsize, stringifyAt]
  | .bool true, d => by simp [jsize, stringifyAt]
  | .bool false, d => by simp [jsize, stringifyAt]
  | .num n, d => by simp only [jsize, stringifyAt]; omega
  | .str s, d => by simp [jsize, stringifyAt]
  | .arr [], d => by simp [jsize, jsizeList, stringifyAt]
  | .arr (x :: xs), d => by
      have h1 := jsize_le_stringify x (d + 1)
      have h2 := jsizeList_le_arrTail xs (d + 1)
      simp only [jsize, jsizeList, stringifyAt, List.length_cons, List.length_append]
      omega
  | .obj [], d => by simp [jsize, jsizeEntries, stringifyAt]
  | .obj ((k, v) :: kvs), d => by
      have h1 := jsize_le_stringify v (d + 1)
      have h2 := jsizeEntries_le_objTail kvs (d + 1)
      simp only [jsize, jsizeEntries, stringifyAt, List.length_cons, List.length_append]
      omega

theorem jsizeList_le_arrTail : ∀ (xs : List JsonValue) (d : Nat),
    jsizeList xs ≤ (arrTail d xs).length + 1
  | [], d => by simp [jsizeList, arrTail]
  | x :: xs, d => by
      have h1 := jsize_le_stringify x d
      have h2 := jsizeList_le_arrTail xs d
      simp only [jsizeList, arrTail, List.length_cons, List.length_append]
      omega

theorem jsizeEntries_le_objTail : ∀ (kvs : List (String × JsonValue)) (d : Nat),
    jsizeEntries kvs ≤ (objTail d kvs).length + 1
  | [], d => by simp [jsizeEntries, objTail]
  | (k, v) :: kvs, d => by
      have h1 := jsize_le_stringify v d
      have h2 := jsizeEntries_le_objTail kvs d
      simp only [jsizeEntries, objTail, List.length_cons, List.length_append]
      omega
end

theorem JSON_parse_WF : ∀ (t : String) (v : JsonValue), JSON_parse t = some v → WF v := by
  intro t v h
  unfold JSON_parse at h
  split at h
  · rename_i v2 rest heq
    split at h
    · injection h with h1
      exact h1 ▸ (parse_sound _).1 _ _ _ heq
    · exact Option.noConfusion h
  · exact Option.noConfusion h

theorem JSON_parse_JSON_stringify : ∀ v : JsonValue, WF v →
    JSON_parse (JSON_stringify v) = some v := by
  intro v hwf
  unfold JSON_parse
  rw [show (JSON_stringify v).data = stringifyAt 0 v from rfl]
  have hle : jsize v ≤ (stringifyAt 0 v).length + 1 := jsize_le_stringify v 0
  have hrt := (stringify_parse_round ((stringifyAt 0 v).length + 1)).1 v 0 [] hle hwf rfl
  rw [List.append_nil] at hrt
  rw [hrt]
  rfl

/-! ### Remaining helpers for the claim theorems -/

theorem enumFrom_keys : ∀ (xs : List JsonValue) (i : Nat),
    (enumFrom i xs).map Prod.fst =
      (List.range xs.length).map (fun j => String.mk (natToDigits (i + j))) := by
  intro xs
  induction xs with
  | nil => intro i; rfl
  | cons x xs ih =>
    intro i
    simp only [enumFrom, List.map_cons, List.length_cons, List.range_succ_eq_map,
      List.map_map]
    congr 1
    rw [ih (i + 1)]
    apply List.map_congr_left
    intro j hj
    simp only [Function.comp_apply]
    congr 2
    omega

theorem sortStrings_range_le_ten : ∀ n : Nat, n ≤ 10 →
    sortStrings ((List.range n).map (fun i => String.mk (natToDigits i))) =
      (List.range n).map (fun i => String.mk (natToDigits i)) := by
  intro n hn
  interval_cases n <;> rfl

theorem lookupKey_mem_keys {k : String} {val : JsonValue}
    {entries : List (String × JsonValue)} (h : lookupKey k entries = some val) :
    k ∈ entries.map Prod.fst := by
  have := lookupKey_mem _ h
  exact List.mem_map.mpr ⟨(k, val), this, rfl⟩

theorem mapFieldsF_mem_field : ∀ (ks : List String) (f : Nat)
    (entries : List (String × JsonValue)) (ds : List DisplayNode) (k : String)
    (val : JsonValue), mapFieldsF f entries ks = some ds → k ∈ ks →
    lookupKey k entries = some val → isJsComposite val = false →
    DisplayNode.field k (jsString val) ∈ ds := by
  intro ks
  induction ks with
  | nil => intro f entries ds k val h hk; exact absurd hk (List.not_mem_nil k)
  | cons k0 ks ih =>
    intro f entries ds k val h hk hl hp
    cases f with
    | zero => exact absurd h (by simp [mapFieldsF])
    | succ f =>
      simp only [mapFieldsF] at h
      rcases List.mem_cons.mp hk with rfl | hk2
      · rw [hl] at h
        simp only at h
        rw [hp] at h
        simp only [Bool.false_eq_true, if_false] at h
        cases hm : mapFieldsF f entries ks with
        | none => rw [hm] at h; exact absurd h (by simp)
        | some rest =>
          rw [hm] at h
          simp only [Option.map_some', Option.some.injEq] at h
          subst h
          exact List.mem_cons_self _ _
      · cases hl0 : lookupKey k0 entries with
        | some value =>
          rw [hl0] at h
          simp only at h
          by_cases hc : isJsComposite value = true
          · rw [if_pos hc] at h
            cases hcf : createFieldsF f value with
            | none => rw [hcf] at h; exact absurd h (by simp)
            | some ch =>
              rw [hcf] at h
              cases hm : mapFieldsF f entries ks with
              | none => rw [hm] at h; exact absurd h (by simp)
              | some rest =>
                rw [hm] at h
                simp only [Option.some.injEq] at h
                subst h
                exact List.mem_cons_of_mem _ (ih f entries rest k val hm hk2 hl hp)
          · rw [if_neg hc] at h
            cases hm : mapFieldsF f entries ks with
            | none => rw [hm] at h; exact absurd h (by simp)
            | some rest =>
              rw [hm] at h
              simp only [Option.map_some', Option.some.injEq] at h
              subst h
              exact List.mem_cons_of_mem _ (ih f entries rest k val hm hk2 hl hp)
        | none =>
          rw [hl0] at h
          simp only at h
          cases hm : mapFieldsF f entries ks with
          | none => rw [hm] at h; exact absurd h (by simp)
          | some rest =>
            rw [hm] at h
            simp only [Option.map_some', Option.some.injEq] at h
            subst h
            exact List.mem_cons_of_mem _ (ih f entries rest k val hm hk2 hl hp)

theorem createFieldsF_mem_field (f : Nat) (v : JsonValue) (ds : List DisplayNode)
    (k : String) (val : JsonValue) (h : createFieldsF f v = some ds)
    (hl : lookupKey k (entriesOf v) = some val) (hp : isJsComposite val = false) :
    DisplayNode.field k (jsString val) ∈ ds := by
  cases f with
  | zero => exact absurd h (by simp [createFieldsF])
  | succ f =>
    simp only [createFieldsF] at h
    refine mapFieldsF_mem_field _ f _ ds k val h ?_ hl hp
    exact ((sortStrings_perm _).mem_iff).mpr (lookupKey_mem_keys hl)

/-! ## The claims -/

/-- C4: Round trip.  For every text that `JSON.parse` accepts, producing
the document `v`, serializing `v` with `JSON.stringify(·, null, 2)` and
re-parsing yields exactly `v` again — same keys, same key order, same
values, same types, including array element order (the parsed documents
are equal as `JsonValue`s, which carry keys in storage order). -/
theorem C4_round_trip (t : String) (v : JsonValue) (h : JSON_parse t = some v) :
    JSON_parse (JSON_stringify v) = some v :=
  JSON_parse_JSON_stringify v (JSON_parse_WF t v h)

theorem C4_witness :
    JSON_parse "\x7b\"b\": 1, \"a\": [true, null, \"x\"]\x7d" =
      some (JsonValue.obj [("b", JsonValue.num 1),
        ("a", JsonValue.arr [JsonValue.bool true, JsonValue.null, JsonValue.str "x"])]) ∧
    JSON_parse (JSON_stringify (JsonValue.obj [("b", JsonValue.num 1),
        ("a", JsonValue.arr [JsonValue.bool true, JsonValue.null, JsonValue.str "x"])])) =
      some (JsonValue.obj [("b", JsonValue.num 1),
        ("a", JsonValue.arr [JsonValue.bool true, JsonValue.null, JsonValue.str "x"])]) :=
  ⟨rfl, C4_round_trip "\x7b\"b\": 1, \"a\": [true, null, \"x\"]\x7d" _ rfl⟩

/-- C5: Order-preserving edits.  Committing an edit at any leaf path (the
commit of lines 149-153 assigns only `data[key]`) leaves the key tree of
the document — the storage order of object keys and array elements at
every level — unchanged, so serializing after the edit reproduces the
pre-edit key order exactly (the serializer walks entries in storage
order). -/
theorem C5_order_preserving_edit (data : JsonValue) (path : List String)
    (t : String) (v : JsonValue) (h : readPath data path = some v)
    (hleaf : isJsComposite v = false) :
    keyShape (commitEdit data path t) = keyShape data :=
  keyShape_commitEdit path data v h hleaf

theorem C5_witness :
    readPath (JsonValue.obj [("b", JsonValue.num 1),
        ("a", JsonValue.obj [("c", JsonValue.bool true)])]) ["a", "c"] =
      some (JsonValue.bool true) ∧
    isJsComposite (JsonValue.bool true) = false ∧
    keyShape (commitEdit (JsonValue.obj [("b", JsonValue.num 1),
        ("a", JsonValue.obj [("c", JsonValue.bool true)])]) ["a", "c"] "false") =
      keyShape (JsonValue.obj [("b", JsonValue.num 1),
        ("a", JsonValue.obj [("c", JsonValue.bool true)])]) :=
  ⟨rfl, rfl, C5_order_preserving_edit _ ["a", "c"] "false" _ rfl rfl⟩

/-- C9: Traversal termination.  For every finite document there is a fuel
bound past which the rendering traversal `createFields` completes and
returns a fixed forest: the recursion terminates on every finite
`JsonValue`, regardless of nesting depth (the bound comes from the
document's size `jsize`). -/
theorem C9_traversal_terminates (v : JsonValue) :
    ∃ (f0 : Nat) (ds : List DisplayNode), ∀ f, f0 ≤ f → createFieldsF f v = some ds := by
  obtain ⟨f0, ds, h⟩ := createFieldsF_ex (jsize v) v (le_refl _)
  exact ⟨f0, ds, fun f hf => createFieldsF_mono hf h⟩

theorem C9_witness :
    ∃ (f0 : Nat) (ds : List DisplayNode), ∀ f, f0 ≤ f →
      createFieldsF f (JsonValue.obj [("b", JsonValue.num 1),
        ("a", JsonValue.obj [("c", JsonValue.bool true)])]) = some ds :=
  C9_traversal_terminates (JsonValue.obj [("b", JsonValue.num 1),
    ("a", JsonValue.obj [("c", JsonValue.bool true)])])

/-- C10: Primitive-root edge case.  When a loaded text parses to a root
value that is not an object or an array (null, boolean, number or
string), the load stores the value and reports success, but the editor
then renders no fields and emits the notice
`"No valid JSON data to display."` — the root value is retained in
memory (`jsonData = v`, `filePath = name`) even though nothing is
displayed. -/
theorem C10_primitive_root_no_fields (fuel : Nat) (st : ViewState)
    (name content : String) (v : JsonValue) (h : JSON_parse content = some v)
    (hprim : isJsComposite v = false) :
    loadFile fuel st name content =
      (ViewState.mk v name,
        ["File loaded successfully!", "No valid JSON data to display."]) ∧
    displayEditorF fuel (ViewState.mk v name) =
      (ViewState.mk v name, [], "No valid JSON data to display.") := by
  have hd : displayEditorF fuel (ViewState.mk v name) =
      (ViewState.mk v name, [], "No valid JSON data to display.") := by
    unfold displayEditorF
    rw [show (ViewState.mk v name).jsonData = v from rfl, hprim]
    simp
  refine ⟨?_, hd⟩
  unfold loadFile
  rw [h]
  simp only
  rw [hd]

theorem C10_witness :
    JSON_parse "42" = some (JsonValue.num 42) ∧
    (loadFile 1 (ViewState.mk JsonValue.null "") "n.json" "42" =
      (ViewState.mk (JsonValue.num 42) "n.json",
        ["File loaded successfully!", "No valid JSON data to display."]) ∧
    displayEditorF 1 (ViewState.mk (JsonValue.num 42) "n.json") =
      (ViewState.mk (JsonValue.num 42) "n.json", [],
        "No valid JSON data to display.")) :=
  ⟨rfl, C10_primitive_root_no_fields 1 (ViewState.mk JsonValue.null "") "n.json"
    "42" (JsonValue.num 42) rfl rfl⟩

/-- C3 counterexample: parse-failure atomicity FAILS for the source
identifier.  Loading the malformed text of the spec's Scenario C over a
previously loaded document does leave the document untouched and emits
the notice, but `this.filePath = file.name` (line 117) runs BEFORE the
`JSON.parse` attempt, so the prior document's source identifier — the
suggested save-target name — is overwritten by the failed load: after
loading `"\x7binvalid"` from `b.json` over a document loaded from
`a.json`, the state's `filePath` is `"b.json"`, not `"a.json"`. -/
theorem C3_counterexample :
    JSON_parse "\x7binvalid" = none ∧
    loadFile 1 (ViewState.mk (JsonValue.obj [("x", JsonValue.num 1)]) "a.json")
        "b.json" "\x7binvalid" =
      (ViewState.mk (JsonValue.obj [("x", JsonValue.num 1)]) "b.json",
        ["Invalid JSON file."]) ∧
    ("b.json" : String) ≠ "a.json" :=
  ⟨rfl, rfl, by decide⟩

/-- C3 amended: on any malformed input the load emits the notice
`"Invalid JSON file."`, produces no document and retains the prior
document unchanged — but the stored source identifier `filePath` is
nevertheless overwritten with the new file's name (assignment before the
parse attempt, line 117). -/
theorem C3_parse_failure (fuel : Nat) (st : ViewState) (name content : String)
    (h : JSON_parse content = none) :
    loadFile fuel st name content =
      (ViewState.mk st.jsonData name, ["Invalid JSON file."]) := by
  unfold loadFile
  rw [h]

theorem C3_witness :
    JSON_parse "\x7binvalid" = none ∧
    loadFile 1 (ViewState.mk (JsonValue.obj [("x", JsonValue.num 1)]) "a.json")
        "b.json" "\x7binvalid" =
      (ViewState.mk (JsonValue.obj [("x", JsonValue.num 1)]) "b.json",
        ["Invalid JSON file."]) :=
  ⟨rfl, C3_parse_failure 1 (ViewState.mk (JsonValue.obj [("x", JsonValue.num 1)])
    "a.json") "b.json" "\x7binvalid" rfl⟩

/-- C1 counterexample: the commit is NOT type-preserving.  The `onChange`
handler (lines 149-153) runs `data[key] = newValue` with the field's raw
text — there is no parse-back and no notice.  Editing the Number leaf at
`"a"` (value `1`) with the text `"5"`, which parses as a JSON number,
stores the String `"5"`, not the Number `5`. -/
theorem C1_counterexample :
    readPath (commitEdit (JsonValue.obj [("a", JsonValue.num 1)]) ["a"] "5") ["a"] =
      some (JsonValue.str "5") ∧
    readPath (commitEdit (JsonValue.obj [("a", JsonValue.num 1)]) ["a"] "5") ["a"] ≠
      some (JsonValue.num 5) := by
  refine ⟨rfl, fun h => ?_⟩
  have h2 : some (JsonValue.str "5") = some (JsonValue.num 5) := h
  injection h2 with h3
  exact JsonValue.noConfusion h3

/-- C1 amended: committing text at an existing leaf path always stores
the raw text as a String value at that path, whatever the leaf's
previous tag and whatever the text parses as; no notice is emitted
(the handler has no notice call). -/
theorem C1_commit_stores_raw_string (data : JsonValue) (path : List String)
    (t : String) (v : JsonValue) (h : readPath data path = some v)
    (hne : path ≠ []) :
    readPath (commitEdit data path t) path = some (JsonValue.str t) :=
  readPath_commitEdit path data v h hne

theorem C1_witness :
    readPath (JsonValue.obj [("a", JsonValue.num 1)]) ["a"] =
      some (JsonValue.num 1) ∧
    (["a"] : List String) ≠ [] ∧
    readPath (commitEdit (JsonValue.obj [("a", JsonValue.num 1)]) ["a"] "abc")
        ["a"] = some (JsonValue.str "abc") :=
  ⟨rfl, by simp, C1_commit_stores_raw_string (JsonValue.obj [("a", JsonValue.num 1)])
    ["a"] "abc" (JsonValue.num 1) rfl (by simp)⟩

/-- C6 counterexample: edit idempotence FAILS for non-string leaves.  The
Number leaf `42` is displayed with text `"42"` (`String(value)`, line
150); committing that very text stores the String `"42"`, so the
document after the commit differs from the document before it. -/
theorem C6_counterexample :
    (createFieldsF 3 (JsonValue.obj [("a", JsonValue.num 42)])).map
        (fun ds => ds.map nodeText) = some ["42"] ∧
    commitEdit (JsonValue.obj [("a", JsonValue.num 42)]) ["a"] "42" ≠
      JsonValue.obj [("a", JsonValue.num 42)] := by
  refine ⟨rfl, fun h => ?_⟩
  have h2 : JsonValue.obj [("a", JsonValue.str "42")] =
      JsonValue.obj [("a", JsonValue.num 42)] := h
  injection h2 with h3
  injection h3 with h4 h5
  injection h4 with h6 h7
  exact JsonValue.noConfusion h7

/-- C6 amended: edit idempotence holds exactly for String leaves.  If the
leaf at `path` is a String, its displayed text is the string itself
(`String(value)` verbatim), and committing that displayed text leaves
the document equal to its pre-commit state. -/
theorem C6_string_leaf_idempotent (data : JsonValue) (path : List String)
    (s : String) (h : readPath data path = some (JsonValue.str s)) :
    commitEdit data path (jsString (JsonValue.str s)) = data :=
  commitEdit_self_str path data h

theorem C6_witness :
    readPath (JsonValue.obj [("a", JsonValue.str "hi")]) ["a"] =
      some (JsonValue.str "hi") ∧
    commitEdit (JsonValue.obj [("a", JsonValue.str "hi")]) ["a"]
        (jsString (JsonValue.str "hi")) =
      JsonValue.obj [("a", JsonValue.str "hi")] :=
  ⟨rfl, C6_string_leaf_idempotent (JsonValue.obj [("a", JsonValue.str "hi")])
    ["a"] "hi" rfl⟩

/-- C7: Object display ordering.  For every Object node the display
order of its children is the lexicographic (code-point) ordering of its
keys — the rendered labels are exactly the stored keys sorted by the
code-point order `strLe`, a permutation of the storage order; the
invariant holds recursively at every nesting depth (every rendered group
is `SortedNode`); and computing the display never mutates the state or
the underlying storage order (the view state returned by the renderer is
the input state, document included, unchanged).  It holds regardless of
prior edits because rendering is a function of the current document
alone. -/
theorem C7_object_display_order (f : Nat) (kvs : List (String × JsonValue))
    (p : String) (ds : List DisplayNode)
    (h : createFieldsF f (JsonValue.obj kvs) = some ds) :
    ds.map nodeLabel = sortStrings (kvs.map Prod.fst) ∧
    List.Sorted (fun a b => strLe a b = true) (ds.map nodeLabel) ∧
    (ds.map nodeLabel).Perm (kvs.map Prod.fst) ∧
    (∀ c ∈ ds, SortedNode c) ∧
    (displayEditorF f (ViewState.mk (JsonValue.obj kvs) p)).1 =
      ViewState.mk (JsonValue.obj kvs) p := by
  have h1 := createFieldsF_labels f _ _ h
  rw [show entriesOf (JsonValue.obj kvs) = kvs from rfl] at h1
  refine ⟨h1, ?_, ?_, (createFieldsF_sortedNodes f).1 _ _ h, ?_⟩
  · rw [h1]; exact sortStrings_sorted _
  · rw [h1]; exact sortStrings_perm _
  · unfold displayEditorF
    split <;> rfl

theorem C7_witness :
    (["a", "b"] : List String) = sortStrings ["b", "a"] ∧
    List.Sorted (fun a b => strLe a b = true) (["a", "b"] : List String) ∧
    (["a", "b"] : List String).Perm ["b", "a"] ∧
    (∀ c ∈ [DisplayNode.field "a" "null", DisplayNode.field "b" "1"],
      SortedNode c) ∧
    (displayEditorF 4 (ViewState.mk
        (JsonValue.obj [("b", JsonValue.num 1), ("a", JsonValue.null)]) "p")).1 =
      ViewState.mk (JsonValue.obj [("b", JsonValue.num 1),
        ("a", JsonValue.null)]) "p" :=
  C7_object_display_order 4 [("b", JsonValue.num 1), ("a", JsonValue.null)] "p"
    [DisplayNode.field "a" "null", DisplayNode.field "b" "1"] rfl

/-- C8 counterexample: the leaf rendering text is NOT the empty string
for Null.  Line 150 displays `String(value)`, and `String(null)` is the
text `"null"`: rendering the object `\x7b"a": null\x7d` produces a single
editable field whose displayed text is `"null"`, not `""`. -/
theorem C8_counterexample :
    (createFieldsF 3 (JsonValue.obj [("a", JsonValue.null)])).map
        (fun ds => ds.map nodeText) = some ["null"] ∧
    ("null" : String) ≠ "" :=
  ⟨rfl, by decide⟩

/-- C8 amended: every primitive child renders as an editable field whose
displayed text is `String(value)`: `"true"`/`"false"` for Bool, the
number's decimal text for Number, the text verbatim for String — and
`"null"` (not the empty string) for Null. -/
theorem C8_leaf_rendering_text (f : Nat) (v : JsonValue) (ds : List DisplayNode)
    (k : String) (val : JsonValue) (h : createFieldsF f v = some ds)
    (hl : lookupKey k (entriesOf v) = some val)
    (hp : isJsComposite val = false) :
    DisplayNode.field k (jsString val) ∈ ds ∧
    jsString JsonValue.null = "null" ∧
    jsString (JsonValue.bool true) = "true" ∧
    jsString (JsonValue.bool false) = "false" ∧
    (∀ s, jsString (JsonValue.str s) = s) ∧
    (∀ n : Int, jsString (JsonValue.num n) = String.mk (intRepr n)) :=
  ⟨createFieldsF_mem_field f v ds k val h hl hp, rfl, rfl, rfl,
    fun _ => rfl, fun _ => rfl⟩

theorem C8_witness :
    createFieldsF 3 (JsonValue.obj [("a", JsonValue.bool true)]) =
      some [DisplayNode.field "a" "true"] ∧
    lookupKey "a" (entriesOf (JsonValue.obj [("a", JsonValue.bool true)])) =
      some (JsonValue.bool true) ∧
    isJsComposite (JsonValue.bool true) = false ∧
    DisplayNode.field "a" (jsString (JsonValue.bool true)) ∈
      [DisplayNode.field "a" "true"] :=
  ⟨rfl, rfl, rfl,
    (C8_leaf_rendering_text 3 (JsonValue.obj [("a", JsonValue.bool true)])
      [DisplayNode.field "a" "true"] "a" (JsonValue.bool true) rfl rfl rfl).1⟩

/-- C2 counterexample: array display order is NOT the numeric index
order once there are 11 or more elements.  Line 140 sorts
`Object.keys(data)` — the stringified indices — lexicographically for
arrays too: an 11-element array renders its children under labels
`0, 1, 10, 2, 3, 4, 5, 6, 7, 8, 9`, with index 10 displayed third. -/
theorem C2_counterexample :
    (createFieldsF 13 (JsonValue.arr (List.replicate 11 JsonValue.null))).map
        (fun ds => ds.map nodeLabel) =
      some ["0", "1", "10", "2", "3", "4", "5", "6", "7", "8", "9"] ∧
    (["0", "1", "10", "2", "3", "4", "5", "6", "7", "8", "9"] : List String) ≠
      (List.range 11).map (fun i => String.mk (natToDigits i)) :=
  ⟨rfl, by decide⟩

/-- C2 amended: for every Array node the display order of its children
is the LEXICOGRAPHIC (code-point) ordering of the stringified indices
`"0", "1", ...` — the same `sort()` applied to object keys — which
coincides with the numeric index order exactly while the array has at
most 10 elements (indices of a single digit), and diverges from it from
11 elements on. -/
theorem C2_array_display_order (f : Nat) (xs : List JsonValue)
    (ds : List DisplayNode) (h : createFieldsF f (JsonValue.arr xs) = some ds) :
    ds.map nodeLabel =
      sortStrings ((List.range xs.length).map (fun i => String.mk (natToDigits i))) ∧
    (xs.length ≤ 10 →
      ds.map nodeLabel =
        (List.range xs.length).map (fun i => String.mk (natToDigits i))) := by
  have h1 := createFieldsF_labels f _ _ h
  rw [show entriesOf (JsonValue.arr xs) = enumFrom 0 xs from rfl,
    enumFrom_keys xs 0] at h1
  simp only [Nat.zero_add] at h1
  exact ⟨h1, fun hlen => by rw [h1, sortStrings_range_le_ten _ hlen]⟩

theorem C2_witness :
    createFieldsF 5 (JsonValue.arr [JsonValue.num 10, JsonValue.num 2,
        JsonValue.num 33]) =
      some [DisplayNode.field "0" "10", DisplayNode.field "1" "2",
        DisplayNode.field "2" "33"] ∧
    ((["0", "1", "2"] : List String) =
      sortStrings ((List.range 3).map (fun i => String.mk (natToDigits i))) ∧
    (3 ≤ 10 → (["0", "1", "2"] : List String) =
      (List.range 3).map (fun i => String.mk (natToDigits i)))) :=
  ⟨rfl, C2_array_display_order 5 [JsonValue.num 10, JsonValue.num 2,
    JsonValue.num 33] [DisplayNode.field "0" "10", DisplayNode.field "1" "2",
    DisplayNode.field "2" "33"] rfl⟩
